import Mathlib

/-! ANN-SoLo: `SpectrumMatcher::dot` (src/src/SpectrumMatch.cpp)

A shallow embedding of the shifted dot product scoring routine and the
properties of it that the specification states.

Modelling conventions.

* `float` and `double` quantities are exact rationals (`ℚ`); the properties
  below are statements of exact arithmetic.
* Peak counts, indices and charges are natural numbers: the `unsigned int`
  counters of the source do not wrap for lists of fewer than `2 ^ 32` peaks,
  the bound the exactness results assume of the working list, and for charges
  below `2 ^ 32 - 1`.  The one unsigned
  subtraction of the routine, `candidate_peaks.size() - 1`, is computed modulo
  `2 ^ 64` as in the source (`sizeMinusOne`).
* Reading a `std::vector` outside its bounds is undefined behaviour.  Every
  unchecked subscript of the source is a read that can fail, and a routine that
  performs one returns `none` (a fault).  `dot` therefore returns
  `Option (Option SpectrumSpectrumMatch)`: the outer `none` is a fault, the
  inner `none` is the `NULL` pointer.
* `std::sort` is not stable: the standard fixes its result only up to the
  order of elements the comparator does not separate.  The two calls are
  fields of `StdSort`, any pair of functions that return an ordered
  permutation of their argument; `insertionStdSort` and `reversedStdSort` are
  two such pairs, which leave equal elements in opposite orders.
-/

namespace AnnSolo

/-! ## Data model -/

/-- Modelled from the spec: the `Peak` value of SpectrumMatch.h, built by
`Peak(mass, intensity, charge, index)` and read by `getMass`, `getIntensity`,
`getCharge` and `getIndex`; `index` is the position of the originating peak in
its source spectrum. -/
structure Peak where
  mass : ℚ
  intensity : ℚ
  charge : ℕ
  index : ℕ
deriving DecidableEq

/-- Modelled from the spec: one entry of a spectrum's peak sequence (mass,
intensity, charge with 0 for an unknown charge). -/
structure SpectrumPeak where
  mass : ℚ
  intensity : ℚ
  charge : ℕ
deriving DecidableEq

/-- Modelled from the spec: the `Spectrum` collaborator of SpectrumMatch.h:
precursor m/z, precursor charge and the sequence of its peaks. -/
structure Spectrum where
  precursorMz : ℚ
  precursorCharge : ℕ
  peaks : List SpectrumPeak
deriving DecidableEq

namespace Spectrum

/-- Modelled from the spec: `getNumPeaks()` of SpectrumMatch.h, the peak count. -/
def getNumPeaks (s : Spectrum) : ℕ := s.peaks.length

/-- Modelled from the spec: `getPrecursorMz()` of SpectrumMatch.h. -/
def getPrecursorMz (s : Spectrum) : ℚ := s.precursorMz

/-- Modelled from the spec: `getPrecursorCharge()` of SpectrumMatch.h. -/
def getPrecursorCharge (s : Spectrum) : ℕ := s.precursorCharge

/-- Modelled from the spec: `getPeakMass(peak_index)` of SpectrumMatch.h, the mass
of the peak at the index; the source only calls it below `getNumPeaks()`. -/
def getPeakMass (s : Spectrum) (i : ℕ) : ℚ :=
  match s.peaks[i]? with
  | some p => p.mass
  | none => 0

/-- Modelled from the spec: `getPeakIntensity(peak_index)` of SpectrumMatch.h. -/
def getPeakIntensity (s : Spectrum) (i : ℕ) : ℚ :=
  match s.peaks[i]? with
  | some p => p.intensity
  | none => 0

/-- Modelled from the spec: `getPeakCharge(peak_index)` of SpectrumMatch.h, 0 for
an unknown charge. -/
def getPeakCharge (s : Spectrum) (i : ℕ) : ℕ :=
  match s.peaks[i]? with
  | some p => p.charge
  | none => 0

/-- The precondition of the spec on a spectrum: masses ascend with the index. -/
def MassSorted (s : Spectrum) : Prop :=
  List.Pairwise (fun a b : SpectrumPeak => a.mass ≤ b.mass) s.peaks

end Spectrum

/-- Modelled from the spec: the result aggregate `SpectrumSpectrumMatch` of
SpectrumMatch.h: `SpectrumSpectrumMatch(candidate_index)` starts with score 0
and no peak matches. -/
structure SpectrumSpectrumMatch where
  candidateIndex : ℕ
  score : ℚ
  peakMatches : List (ℕ × ℕ)
deriving DecidableEq

namespace SpectrumSpectrumMatch

/-- Modelled from the spec: `new SpectrumSpectrumMatch(candidate_index)`, with
score 0 and no peak matches. -/
def new (candidate_index : ℕ) : SpectrumSpectrumMatch := ⟨candidate_index, 0, []⟩

/-- Modelled from the spec: `getScore()` of SpectrumMatch.h. -/
def getScore (m : SpectrumSpectrumMatch) : ℚ := m.score

/-- Modelled from the spec: `setScore(score)` of SpectrumMatch.h. -/
def setScore (m : SpectrumSpectrumMatch) (s : ℚ) : SpectrumSpectrumMatch :=
  { m with score := s }

/-- Modelled from the spec: `addPeakMatch(query_peak_index, candidate_peak_index)`
of SpectrumMatch.h, which appends the index pair. -/
def addPeakMatch (m : SpectrumSpectrumMatch) (q c : ℕ) : SpectrumSpectrumMatch :=
  { m with peakMatches := m.peakMatches ++ [(q, c)] }

end SpectrumSpectrumMatch

/-- The `std::tuple<float, unsigned int, unsigned int>` of `peak_matches`:
weight, query peak index, candidate peak index. -/
abbrev PeakMatch : Type := ℚ × ℕ × ℕ

/-- The contract of the two `std::sort` calls of `dot`: the result is a
permutation of the argument in which no later element compares before an
earlier one (`peak1.getMass() < peak2.getMass()` for the working peak list,
`get<0>(m1) > get<0>(m2)` for the match list). -/
structure StdSort where
  sortPeaks : List Peak → List Peak
  sortPeaks_perm : ∀ l, List.Perm (sortPeaks l) l
  sortPeaks_ordered : ∀ l, List.Pairwise (fun a b : Peak => ¬ b.mass < a.mass) (sortPeaks l)
  sortMatches : List PeakMatch → List PeakMatch
  sortMatches_perm : ∀ l, List.Perm (sortMatches l) l
  sortMatches_ordered : ∀ l, List.Pairwise (fun a b : PeakMatch => ¬ b.1 > a.1) (sortMatches l)

/-! ## The candidate peak list (lines 17-57) -/

/-- Lines 18-24: one copy of every candidate peak, with charge 0. -/
def unshiftedPeaks (candidate : Spectrum) : List Peak :=
  (List.range candidate.getNumPeaks).map fun peak_index =>
    Peak.mk (candidate.getPeakMass peak_index) (candidate.getPeakIntensity peak_index) 0 peak_index

/-- Lines 32-44: `min_charge` and `max_charge` of one candidate peak. -/
def chargeBounds (candidate : Spectrum) (peak_index : ℕ) : ℕ × ℕ :=
  if candidate.getPeakCharge peak_index > 0 then
    (candidate.getPeakCharge peak_index, candidate.getPeakCharge peak_index + 1)
  else
    (1, candidate.getPrecursorCharge)

/-- Lines 46-53: the shifted copies of one candidate peak, for
`charge = min_charge, ..., max_charge - 1`, those of positive mass only. -/
def shiftedPeaksOf (candidate : Spectrum) (mass_dif : ℚ) (peak_index : ℕ) : List Peak :=
  let b := chargeBounds candidate peak_index
  (List.range' b.1 (b.2 - b.1)).flatMap fun charge =>
    let mass := candidate.getPeakMass peak_index - mass_dif / (charge : ℚ)
    if mass > 0 then
      [Peak.mk mass (candidate.getPeakIntensity peak_index) charge peak_index]
    else []

/-- Line 26: `mass_dif`. -/
def massDif (query candidate : Spectrum) : ℚ :=
  (query.getPrecursorMz - candidate.getPrecursorMz) * (candidate.getPrecursorCharge : ℚ)

/-- Lines 17-57: the working peak list `candidate_peaks`. -/
def candidatePeaks (S : StdSort) (query candidate : Spectrum) (fragment_mz_tolerance : ℚ)
    (allow_shift : Bool) : List Peak :=
  if allow_shift = true ∧ massDif query candidate > fragment_mz_tolerance then
    S.sortPeaks (unshiftedPeaks candidate ++
      (List.range candidate.getNumPeaks).flatMap (shiftedPeaksOf candidate (massDif query candidate)))
  else
    unshiftedPeaks candidate

/-! ## The peak matching loop (lines 59-102) -/

/-- The value of `candidate_peaks.size() - 1` in `size_t` arithmetic. -/
def sizeMinusOne (size : ℕ) : ℕ := (size + 2 ^ 64 - 1) % 2 ^ 64

/-- Lines 68-72: the loop of the cursor advance, with the value `bound` of
`candidate_peaks.size() - 1`, which no iteration changes.  The subscript
`candidate_peaks[candidate_peak_index]` is unchecked: a read at or past the
size is a fault (`none`). -/
def advanceLoop (candidate_peaks : List Peak) (bound : ℕ)
    (query_peak_mass fragment_mz_tolerance : ℚ) (candidate_peak_index : ℕ) : Option ℕ :=
  if candidate_peak_index < bound then
    if h : candidate_peak_index < candidate_peaks.length then
      if query_peak_mass - fragment_mz_tolerance > candidate_peaks[candidate_peak_index].mass then
        advanceLoop candidate_peaks bound query_peak_mass fragment_mz_tolerance
          (candidate_peak_index + 1)
      else some candidate_peak_index
    else none
  else some candidate_peak_index
termination_by candidate_peaks.length - candidate_peak_index

/-- Lines 68-72: the cursor advance
`while (candidate_peak_index < candidate_peaks.size() - 1 && ...)`. -/
def advanceCursor (candidate_peaks : List Peak) (query_peak_mass fragment_mz_tolerance : ℚ)
    (candidate_peak_index : ℕ) : Option ℕ :=
  advanceLoop candidate_peaks (sizeMinusOne candidate_peaks.length) query_peak_mass
    fragment_mz_tolerance candidate_peak_index

/-- Lines 78-94: `can_match`, three branches, the first that applies wins. -/
def canMatch (query_peak_charge candidate_charge : ℕ) : Bool :=
  if candidate_charge = 0 then true
  else if query_peak_charge = candidate_charge ∧ query_peak_charge ≠ 0 ∧ candidate_charge ≠ 0 then true
  else if query_peak_charge = 0 then true
  else false

/-- Lines 75-101: the window scan from the cursor, `index = 0, 1, ...`; the
subscripts are guarded by `candidate_peak_index + index < size()`. -/
def scanWindow (candidate_peaks : List Peak) (query_peak_mass query_peak_intensity : ℚ)
    (query_peak_charge query_peak_index : ℕ) (fragment_mz_tolerance : ℚ)
    (candidate_peak_index index : ℕ) : List PeakMatch :=
  if h : candidate_peak_index + index < candidate_peaks.length then
    if |query_peak_mass - candidate_peaks[candidate_peak_index + index].mass|
        ≤ fragment_mz_tolerance then
      (if canMatch query_peak_charge candidate_peaks[candidate_peak_index + index].charge = true then
        [(query_peak_intensity * candidate_peaks[candidate_peak_index + index].intensity,
          query_peak_index, candidate_peaks[candidate_peak_index + index].index)]
      else []) ++
      scanWindow candidate_peaks query_peak_mass query_peak_intensity query_peak_charge
        query_peak_index fragment_mz_tolerance candidate_peak_index (index + 1)
    else []
  else []
termination_by candidate_peaks.length - (candidate_peak_index + index)

/-- Lines 62-102: the loop over the query peaks `query_peak_indices`, carrying
the cursor; the matches are appended in the order they are found. -/
def matchLoop (candidate_peaks : List Peak) (query : Spectrum) (fragment_mz_tolerance : ℚ) :
    List ℕ → ℕ → Option (List PeakMatch)
  | [], _ => some []
  | query_peak_index :: rest, candidate_peak_index =>
    match advanceCursor candidate_peaks (query.getPeakMass query_peak_index)
        fragment_mz_tolerance candidate_peak_index with
    | none => none
    | some cursor =>
      match matchLoop candidate_peaks query fragment_mz_tolerance rest cursor with
      | none => none
      | some later =>
        some (scanWindow candidate_peaks (query.getPeakMass query_peak_index)
          (query.getPeakIntensity query_peak_index) (query.getPeakCharge query_peak_index)
          query_peak_index fragment_mz_tolerance cursor 0 ++ later)

/-- Lines 59-102: `peak_matches` before it is sorted. -/
def matchPeaks (candidate_peaks : List Peak) (query : Spectrum) (fragment_mz_tolerance : ℚ) :
    Option (List PeakMatch) :=
  matchLoop candidate_peaks query fragment_mz_tolerance (List.range query.getNumPeaks) 0

/-! ## The greedy assignment (lines 106-126) -/

/-- Lines 112-126: the walk over the sorted match list.  Both flag vectors are
read with an unchecked subscript (a fault when out of bounds); the second flag
is only read when the first is `false`. -/
def assignLoop : List PeakMatch → List Bool → List Bool → SpectrumSpectrumMatch →
    Option SpectrumSpectrumMatch
  | [], _, _, this_match => some this_match
  | peak_match :: rest, query_peaks_used, candidate_peaks_used, this_match =>
    match query_peaks_used[peak_match.2.1]? with
    | none => none
    | some true => assignLoop rest query_peaks_used candidate_peaks_used this_match
    | some false =>
      match candidate_peaks_used[peak_match.2.2]? with
      | none => none
      | some true => assignLoop rest query_peaks_used candidate_peaks_used this_match
      | some false =>
        assignLoop rest (query_peaks_used.set peak_match.2.1 true)
          (candidate_peaks_used.set peak_match.2.2 true)
          ((this_match.setScore (this_match.getScore + peak_match.1)).addPeakMatch
            peak_match.2.1 peak_match.2.2)

/-- Lines 15-130: the evaluation of one candidate, `this_match`. -/
def scoreCandidate (S : StdSort) (query candidate : Spectrum) (candidate_index : ℕ)
    (fragment_mz_tolerance : ℚ) (allow_shift : Bool) : Option SpectrumSpectrumMatch :=
  match matchPeaks (candidatePeaks S query candidate fragment_mz_tolerance allow_shift) query
      fragment_mz_tolerance with
  | none => none
  | some peak_matches =>
    assignLoop (S.sortMatches peak_matches) (List.replicate query.getNumPeaks false)
      (List.replicate candidate.getNumPeaks false) (SpectrumSpectrumMatch.new candidate_index)

/-! ## The candidate loop (lines 12-147) -/

/-- Lines 132-144: the retained match after `this_match` has been compared. -/
def retain (best_match : Option SpectrumSpectrumMatch) (this_match : SpectrumSpectrumMatch) :
    SpectrumSpectrumMatch :=
  match best_match with
  | none => this_match
  | some best => if best.getScore < this_match.getScore then this_match else best

/-- Lines 13-145: the loop over the candidates from `candidate_index` on. -/
def dotLoop (S : StdSort) (query : Spectrum) (fragment_mz_tolerance : ℚ) (allow_shift : Bool) :
    List Spectrum → ℕ → Option SpectrumSpectrumMatch → Option (Option SpectrumSpectrumMatch)
  | [], _, best_match => some best_match
  | candidate :: rest, candidate_index, best_match =>
    match scoreCandidate S query candidate candidate_index fragment_mz_tolerance allow_shift with
    | none => none
    | some this_match =>
      dotLoop S query fragment_mz_tolerance allow_shift rest (candidate_index + 1)
        (some (retain best_match this_match))

/-- The routine `SpectrumMatcher::dot`.  The outer `none` is a fault (an out-of-bounds
read), `some none` is the `NULL` result. -/
def dot (S : StdSort) (query : Spectrum) (candidates : List Spectrum)
    (fragment_mz_tolerance : ℚ) (allow_shift : Bool) : Option (Option SpectrumSpectrumMatch) :=
  dotLoop S query fragment_mz_tolerance allow_shift candidates 0 none

/-- A `std::sort` that meets the contract: insertion sort for both calls. -/
def insertionStdSort : StdSort where
  sortPeaks := List.insertionSort (fun a b : Peak => a.mass ≤ b.mass)
  sortPeaks_perm := List.perm_insertionSort _
  sortPeaks_ordered := by
    intro l
    haveI : IsTotal Peak (fun a b : Peak => a.mass ≤ b.mass) := ⟨fun a b => le_total a.mass b.mass⟩
    haveI : IsTrans Peak (fun a b : Peak => a.mass ≤ b.mass) := ⟨fun _ _ _ h₁ h₂ => le_trans h₁ h₂⟩
    have h := List.sorted_insertionSort (fun a b : Peak => a.mass ≤ b.mass) l
    exact List.Pairwise.imp (fun hab => not_lt.mpr hab) h
  sortMatches := List.insertionSort (fun a b : PeakMatch => b.1 ≤ a.1)
  sortMatches_perm := List.perm_insertionSort _
  sortMatches_ordered := by
    intro l
    haveI : IsTotal PeakMatch (fun a b : PeakMatch => b.1 ≤ a.1) := ⟨fun a b => le_total b.1 a.1⟩
    haveI : IsTrans PeakMatch (fun a b : PeakMatch => b.1 ≤ a.1) := ⟨fun _ _ _ h₁ h₂ => le_trans h₂ h₁⟩
    have h := List.sorted_insertionSort (fun a b : PeakMatch => b.1 ≤ a.1) l
    exact List.Pairwise.imp (fun hab => not_lt.mpr hab) h

/-! ## Specification-side definitions -/

/-- The charge compatibility table of the spec (section 4.2), read top to
bottom: the candidate peak is unshifted, or both charges are known and equal,
or the query charge is unknown. -/
def ChargeCompatible (query_charge candidate_charge : ℕ) : Prop :=
  candidate_charge = 0 ∨
    (candidate_charge ≠ 0 ∧ query_charge ≠ 0 ∧ query_charge = candidate_charge) ∨
    query_charge = 0

instance (q c : ℕ) : Decidable (ChargeCompatible q c) := by
  unfold ChargeCompatible; infer_instance

/-- The match list the spec asks of the Peak Matcher (section 4.2): for every
query index `i` and every position `j` of the working list with its peak `p`,
in this order, one entry when the masses are within the tolerance and the
charges compatible. -/
def matchSpec (candidate_peaks : List Peak) (query : Spectrum) (tol : ℚ) : List PeakMatch :=
  (List.range query.getNumPeaks).flatMap fun i =>
    candidate_peaks.enum.flatMap fun jp =>
      if |query.getPeakMass i - jp.2.mass| ≤ tol ∧
          ChargeCompatible (query.getPeakCharge i) jp.2.charge
      then [(query.getPeakIntensity i * jp.2.intensity, i, jp.2.index)]
      else []

/-- The shifted peaks the spec asks of the Candidate Peak Expander for one
candidate peak (section 4.1, step 3), before the non-positive masses are
discarded: one peak for a known charge, one for every charge from 1 to
`precursorCharge - 1` for an unknown one. -/
def shiftSpecOf (candidate : Spectrum) (mass_dif : ℚ) (i : ℕ) (p : SpectrumPeak) : List Peak :=
  if 0 < p.charge then
    [Peak.mk (p.mass - mass_dif / (p.charge : ℚ)) p.intensity p.charge i]
  else
    ((List.range candidate.precursorCharge).filter fun k : ℕ => 1 ≤ k).map fun k : ℕ =>
      Peak.mk (p.mass - mass_dif / (k : ℚ)) p.intensity k i

/-- The content the spec asks of the working peak list (section 4.1): the
unshifted copies, and the shifted peaks of positive mass when shifting is
allowed and the mass difference exceeds the tolerance. -/
def expanderSpec (query candidate : Spectrum) (tol : ℚ) (allow_shift : Bool) : List Peak :=
  candidate.peaks.enum.map (fun ip => Peak.mk ip.2.mass ip.2.intensity 0 ip.1) ++
    (if allow_shift = true ∧
        (query.precursorMz - candidate.precursorMz) * (candidate.precursorCharge : ℚ) > tol then
      (candidate.peaks.enum.flatMap fun ip =>
        shiftSpecOf candidate
          ((query.precursorMz - candidate.precursorMz) * (candidate.precursorCharge : ℚ))
          ip.1 ip.2).filter fun p => 0 < p.mass
    else [])

/-- The acceptance rule of the Greedy Assigner as the spec words it (section
4.3): walking the list, an entry is accepted if and only if neither its query
index nor its candidate index has been accepted before; `used_q` and `used_c`
are the indices accepted so far. -/
def greedyAccept : List PeakMatch → List ℕ → List ℕ → List PeakMatch
  | [], _, _ => []
  | e :: rest, used_q, used_c =>
    if e.2.1 ∈ used_q ∨ e.2.2 ∈ used_c then greedyAccept rest used_q used_c
    else e :: greedyAccept rest (e.2.1 :: used_q) (e.2.2 :: used_c)

/-- The index pair of a match list entry. -/
def pairOf (e : PeakMatch) : ℕ × ℕ := (e.2.1, e.2.2)

/-- The total weight of a list of entries. -/
def totalWeight (l : List PeakMatch) : ℚ := (l.map fun e => e.1).sum

/-- The entry the window scan pushes for a working-list peak. -/
def entryOf (query_peak_intensity : ℚ) (query_peak_index : ℕ) (p : Peak) : PeakMatch :=
  (query_peak_intensity * p.intensity, query_peak_index, p.index)

/-- The entries a query peak contributes, as a filter of the working list. -/
def windowOf (peaks : List Peak) (query : Spectrum) (tol : ℚ) (i : ℕ) : List PeakMatch :=
  ((peaks.filter fun p => decide (|query.getPeakMass i - p.mass| ≤ tol)).filter
    fun p => canMatch (query.getPeakCharge i) p.charge).map (entryOf (query.getPeakIntensity i) i)

/-- A flag vector stands for a set of used indices. -/
def FlagsOf (flags : List Bool) (used : List ℕ) : Prop :=
  ∀ i b, flags[i]? = some b → (b = true ↔ i ∈ used)

/-- A query with two peaks; its precursor m/z is 16 above `exampleCandidate`. -/
def exampleQuery : Spectrum := ⟨516, 1, [⟨84, 3, 0⟩, ⟨100, 2, 0⟩]⟩

/-- A candidate of precursor charge 1 with two peaks of known charge 1. -/
def exampleCandidate : Spectrum := ⟨500, 1, [⟨84, 2, 1⟩, ⟨100, 3, 1⟩]⟩

/-- The working peak list of `exampleCandidate` for `exampleQuery` with shifting. -/
def exampleWorkingList : List Peak :=
  [⟨68, 2, 1, 0⟩, ⟨84, 2, 0, 0⟩, ⟨84, 3, 1, 1⟩, ⟨100, 3, 0, 1⟩]

/-- A candidate of precursor charge 2 with the precursor m/z of `exampleQuery`. -/
def sameMzCandidate : Spectrum := ⟨516, 2, [⟨84, 2, 1⟩, ⟨100, 3, 0⟩]⟩

/-- A candidate spectrum that has no peaks. -/
def peaklessCandidate : Spectrum := ⟨500, 1, []⟩

/-- Lines 46: the values `charge = min_charge, ..., max_charge - 1` by which
`mass_dif` is divided for one candidate peak. -/
def shiftCharges (candidate : Spectrum) (peak_index : ℕ) : List ℕ :=
  List.range' (chargeBounds candidate peak_index).1
    ((chargeBounds candidate peak_index).2 - (chargeBounds candidate peak_index).1)

/-- The walk of the Greedy Assigner as the spec words it (section 4.3), with
the entries accepted so far in walk order: an entry is accepted if and only if
no earlier accepted entry has its query index and no earlier accepted entry
has its candidate index. -/
def greedyWalk : List PeakMatch → List PeakMatch → List PeakMatch
  | [], accepted => accepted
  | e :: rest, accepted =>
    if (∀ a ∈ accepted, a.2.1 ≠ e.2.1) ∧ (∀ a ∈ accepted, a.2.2 ≠ e.2.2) then
      greedyWalk rest (accepted ++ [e])
    else greedyWalk rest accepted

/-- The query of scenario A of the spec, for a precursor m/z and charge. -/
def scenarioAQuery (mz : ℚ) (z : ℕ) : Spectrum := ⟨mz, z, [⟨100, 10, 0⟩, ⟨105, 5, 0⟩]⟩

/-- The candidate of scenario A of the spec, for a precursor m/z and charge. -/
def scenarioACandidate (mz : ℚ) (z : ℕ) : Spectrum := ⟨mz, z, [⟨100, 8, 0⟩]⟩

/-- The candidate of scenario B of the spec: precursor charge 1 and one peak
of known charge 1 at mass `x`. -/
def scenarioBCandidate (mz x intensity : ℚ) : Spectrum := ⟨mz, 1, [⟨x, intensity, 1⟩]⟩

/-- A query for scenario B with `x = 50`: peak 0 is at the shifted mass 34,
peak 1 at the unshifted mass 50 and ten times as intense. -/
def scenarioBQuery : Spectrum := ⟨516, 1, [⟨34, 1, 1⟩, ⟨50, 10, 0⟩]⟩

/-- A query and a candidate on which the greedy assignment is not optimal. -/
def greedyQuery : Spectrum := ⟨500, 1, [⟨100, 3, 0⟩, ⟨102, 2, 0⟩]⟩

/-- The candidate that goes with `greedyQuery`. -/
def greedyCandidate : Spectrum := ⟨500, 1, [⟨99, 2, 0⟩, ⟨101, 3, 0⟩]⟩

/-- A query whose two peaks have one mass and one intensity. -/
def tieQuery : Spectrum := ⟨516, 1, [⟨84, 1, 0⟩, ⟨84, 1, 2⟩]⟩

/-- The candidate that goes with `tieQuery`: all match list entries weigh 1. -/
def tieCandidate : Spectrum := ⟨500, 1, [⟨84, 1, 1⟩, ⟨100, 1, 1⟩]⟩

/-- Another `std::sort` that meets the contract: insertion sort of the reversed
sequence, which leaves equal elements in the opposite order. -/
def reversedStdSort : StdSort where
  sortPeaks := fun l => insertionStdSort.sortPeaks l.reverse
  sortPeaks_perm := fun l => (insertionStdSort.sortPeaks_perm l.reverse).trans (List.reverse_perm l)
  sortPeaks_ordered := fun l => insertionStdSort.sortPeaks_ordered l.reverse
  sortMatches := fun l => insertionStdSort.sortMatches l.reverse
  sortMatches_perm := fun l =>
    (insertionStdSort.sortMatches_perm l.reverse).trans (List.reverse_perm l)
  sortMatches_ordered := fun l => insertionStdSort.sortMatches_ordered l.reverse

/-- A reported pair `(q, c)` is justified: the query peak is within the
tolerance of the candidate peak, or shifting applies (`allow_shift` and the
mass difference exceeds the tolerance) and the query peak is within the
tolerance of the candidate peak shifted for a charge `k` used for it (its own
charge when known, else `1 ≤ k < precursorCharge`), the shifted mass is
positive and the query charge is 0 or `k`. -/
def PairJustified (query candidate : Spectrum) (tol : ℚ) (allow_shift : Bool) (q c : ℕ) : Prop :=
  |query.getPeakMass q - candidate.getPeakMass c| ≤ tol ∨
    (allow_shift = true ∧
      (query.precursorMz - candidate.precursorMz) * (candidate.precursorCharge : ℚ) > tol ∧
      ∃ k : ℕ, 1 ≤ k ∧
        ((0 < candidate.getPeakCharge c ∧ k = candidate.getPeakCharge c) ∨
          (candidate.getPeakCharge c = 0 ∧ k < candidate.precursorCharge)) ∧
        0 < candidate.getPeakMass c -
          (query.precursorMz - candidate.precursorMz) * (candidate.precursorCharge : ℚ) / (k : ℚ) ∧
        |query.getPeakMass q - (candidate.getPeakMass c -
          (query.precursorMz - candidate.precursorMz) * (candidate.precursorCharge : ℚ) / (k : ℚ))|
            ≤ tol ∧
        (query.getPeakCharge q = 0 ∨ query.getPeakCharge q = k))

/-- No run of the cursor advance reads past the end: every candidate has a
peak, or the query has none. -/
def NoEmptyCandidate (query : Spectrum) (candidates : List Spectrum) : Prop :=
  ∀ c ∈ candidates, c.peaks ≠ [] ∨ query.peaks = []

/-! ## Accessors -/

theorem getPeakMass_of_getElem? {s : Spectrum} {i : ℕ} {p : SpectrumPeak}
    (h : s.peaks[i]? = some p) : s.getPeakMass i = p.mass := by
  simp [Spectrum.getPeakMass, h]

theorem getPeakIntensity_of_getElem? {s : Spectrum} {i : ℕ} {p : SpectrumPeak}
    (h : s.peaks[i]? = some p) : s.getPeakIntensity i = p.intensity := by
  simp [Spectrum.getPeakIntensity, h]

theorem getPeakCharge_of_getElem? {s : Spectrum} {i : ℕ} {p : SpectrumPeak}
    (h : s.peaks[i]? = some p) : s.getPeakCharge i = p.charge := by
  simp [Spectrum.getPeakCharge, h]

/-! ## The cursor advance -/

theorem sizeMinusOne_zero : sizeMinusOne 0 = 2 ^ 64 - 1 := by
  norm_num [sizeMinusOne]

theorem sizeMinusOne_le {n : ℕ} (h : 0 < n) : sizeMinusOne n ≤ n - 1 := by
  unfold sizeMinusOne
  have h1 : n + 2 ^ 64 - 1 = (n - 1) + 2 ^ 64 := by omega
  rw [h1, Nat.add_mod_right]
  exact Nat.mod_le _ _

theorem sizeMinusOne_eq {n : ℕ} (h : 0 < n) (hn : n < 2 ^ 32) : sizeMinusOne n = n - 1 := by
  unfold sizeMinusOne
  have h1 : n + 2 ^ 64 - 1 = (n - 1) + 2 ^ 64 := by omega
  rw [h1, Nat.add_mod_right]
  apply Nat.mod_eq_of_lt
  have h3 : (2 : ℕ) ^ 32 = 4294967296 := by norm_num
  have h4 : (2 : ℕ) ^ 64 = 18446744073709551616 := by norm_num
  rw [h4]; rw [h3] at hn
  omega

/-- On an empty working list the first test of the cursor advance holds
(`0 < 2 ^ 64 - 1`) and the read of `candidate_peaks[0]` is out of bounds. -/
theorem advanceCursor_nil (qm tol : ℚ) : advanceCursor [] qm tol 0 = none := by
  have h : (0 : ℕ) < sizeMinusOne ([] : List Peak).length := by
    rw [List.length_nil, sizeMinusOne_zero]; norm_num
  rw [advanceCursor, advanceLoop, if_pos h, dif_neg (by simp)]

/-- With a bound that is at most the last position, the loop of the cursor
advance does not fault: it stops at a position of the list, having passed only
peaks below the window. -/
theorem advanceLoop_some (peaks : List Peak) (bound : ℕ) (qm tol : ℚ)
    (hb : bound ≤ peaks.length - 1) :
    ∀ (n idx : ℕ), peaks.length - idx = n → idx < peaks.length →
      ∃ k, advanceLoop peaks bound qm tol idx = some k ∧ idx ≤ k ∧ k < peaks.length ∧
        (∀ j p, idx ≤ j → j < k → peaks[j]? = some p → p.mass < qm - tol) ∧
        (k < bound → ∀ p, peaks[k]? = some p → ¬ qm - tol > p.mass) := by
  intro n
  induction n with
  | zero => intro idx hn hidx; omega
  | succ n ih =>
    intro idx hn hidx
    rw [advanceLoop]
    by_cases h1 : idx < bound
    · by_cases h2 : qm - tol > peaks[idx].mass
      · have hlt : idx + 1 < peaks.length := by omega
        obtain ⟨k, hk, hle, hklt, hbelow, hstop⟩ := ih (idx + 1) (by omega) hlt
        refine ⟨k, ?_, by omega, hklt, ?_, hstop⟩
        · simp [h1, hidx, h2, hk]
        · intro j p hj hjk hp
          by_cases hji : j = idx
          · subst hji
            rw [List.getElem?_eq_getElem hidx] at hp
            cases hp
            exact h2
          · exact hbelow j p (by omega) hjk hp
      · refine ⟨idx, by simp [h1, hidx, h2], le_refl _, hidx, ?_, ?_⟩
        · intro j p hj hjk; omega
        · intro _ p hp
          rw [List.getElem?_eq_getElem hidx] at hp
          cases hp
          exact h2
    · refine ⟨idx, by simp [h1], le_refl _, hidx, ?_, ?_⟩
      · intro j p hj hjk; omega
      · intro h; exact absurd h h1

/-- The cursor advance on a non-empty working list, from a position of the
list. -/
theorem advanceCursor_some (peaks : List Peak) (qm tol : ℚ) (idx : ℕ) (hidx : idx < peaks.length) :
    ∃ k, advanceCursor peaks qm tol idx = some k ∧ idx ≤ k ∧ k < peaks.length ∧
      (∀ j p, idx ≤ j → j < k → peaks[j]? = some p → p.mass < qm - tol) ∧
      (k < sizeMinusOne peaks.length → ∀ p, peaks[k]? = some p → ¬ qm - tol > p.mass) :=
  advanceLoop_some peaks _ qm tol (sizeMinusOne_le (Nat.lt_of_le_of_lt (Nat.zero_le _) hidx))
    _ idx rfl hidx

/-! ## The window scan -/

/-- The window scan reads the working list from the cursor while the mass
test holds and keeps the charge-compatible peaks. -/
theorem scanWindow_eq (peaks : List Peak) (qm qi : ℚ) (qc qidx : ℕ) (tol : ℚ) (cursor : ℕ) :
    ∀ (n index : ℕ), peaks.length - (cursor + index) = n →
      scanWindow peaks qm qi qc qidx tol cursor index =
        (((peaks.drop (cursor + index)).takeWhile fun p => decide (|qm - p.mass| ≤ tol)).filter
          fun p => canMatch qc p.charge).map (entryOf qi qidx) := by
  intro n
  induction n with
  | zero =>
    intro index hn
    rw [scanWindow, dif_neg (by omega), List.drop_eq_nil_of_le (by omega)]
    rfl
  | succ n ih =>
    intro index hn
    have hlt : cursor + index < peaks.length := by omega
    rw [scanWindow, dif_pos hlt, List.drop_eq_getElem_cons hlt]
    by_cases hm : |qm - peaks[cursor + index].mass| ≤ tol
    · rw [if_pos hm, ih (index + 1) (by omega)]
      by_cases hc : canMatch qc peaks[cursor + index].charge = true
      · simp [List.takeWhile_cons, List.filter_cons, hm, hc, entryOf, Nat.add_assoc]
      · simp [List.takeWhile_cons, List.filter_cons, hm, hc, Nat.add_assoc]
    · rw [if_neg hm, List.takeWhile_cons, if_neg (by simpa using hm)]
      rfl

/-- Every entry of a window scan comes from a working-list peak within the
tolerance whose charge is compatible. -/
theorem mem_scanWindow {peaks : List Peak} {qm qi : ℚ} {qc qidx : ℕ} {tol : ℚ} {cursor index : ℕ}
    {e : PeakMatch} (he : e ∈ scanWindow peaks qm qi qc qidx tol cursor index) :
    ∃ p ∈ peaks, |qm - p.mass| ≤ tol ∧ canMatch qc p.charge = true ∧ e = entryOf qi qidx p := by
  rw [scanWindow_eq peaks qm qi qc qidx tol cursor _ index rfl] at he
  obtain ⟨p, hp, rfl⟩ := List.mem_map.mp he
  obtain ⟨hp1, hp2⟩ := List.mem_filter.mp hp
  have hp3 := List.mem_takeWhile_imp hp1
  exact ⟨p, List.mem_of_mem_drop (List.takeWhile_sublist _ |>.subset hp1), by simpa using hp3,
    hp2, rfl⟩

/-! ## The matching loop -/

/-- On a non-empty working list the matching loop does not fault. -/
theorem matchLoop_some (peaks : List Peak) (query : Spectrum) (tol : ℚ) :
    ∀ (qis : List ℕ) (cursor : ℕ), cursor < peaks.length →
      ∃ out, matchLoop peaks query tol qis cursor = some out := by
  intro qis
  induction qis with
  | nil => intro cursor _; exact ⟨[], rfl⟩
  | cons i rest ih =>
    intro cursor hc
    obtain ⟨k, hk, _, hklt, _⟩ := advanceCursor_some peaks (query.getPeakMass i) tol cursor hc
    obtain ⟨later, hl⟩ := ih k hklt
    refine ⟨scanWindow peaks (query.getPeakMass i) (query.getPeakIntensity i)
      (query.getPeakCharge i) i tol k 0 ++ later, ?_⟩
    simp [matchLoop, hk, hl]

/-- On an empty working list the matching loop faults at the first query
peak. -/
theorem matchLoop_nil_cons (query : Spectrum) (tol : ℚ) (i : ℕ) (rest : List ℕ) :
    matchLoop [] query tol (i :: rest) 0 = none := by
  simp [matchLoop, advanceCursor_nil]

/-- Soundness of the matching loop, with no assumption on the order of the
peaks: every entry pairs a query peak of the list with a working-list peak
within the tolerance and of compatible charge. -/
theorem mem_matchLoop {peaks : List Peak} {query : Spectrum} {tol : ℚ} :
    ∀ {qis : List ℕ} {cursor : ℕ} {out : List PeakMatch},
      matchLoop peaks query tol qis cursor = some out → ∀ e ∈ out,
        ∃ i ∈ qis, ∃ p ∈ peaks, |query.getPeakMass i - p.mass| ≤ tol ∧
          canMatch (query.getPeakCharge i) p.charge = true ∧
          e = entryOf (query.getPeakIntensity i) i p := by
  intro qis
  induction qis with
  | nil =>
    intro cursor out h e he
    simp [matchLoop] at h
    subst h
    simp at he
  | cons i rest ih =>
    intro cursor out h e he
    rw [matchLoop] at h
    cases hk : advanceCursor peaks (query.getPeakMass i) tol cursor with
    | none => simp [hk] at h
    | some k =>
      cases hl : matchLoop peaks query tol rest k with
      | none => simp [hk, hl] at h
      | some later =>
        simp only [hk, hl, Option.some.injEq] at h
        subst h
        rcases List.mem_append.mp he with h1 | h2
        · obtain ⟨p, hp, hm, hc, rfl⟩ := mem_scanWindow h1
          exact ⟨i, List.mem_cons_self _ _, p, hp, hm, hc, rfl⟩
        · obtain ⟨j, hj, rest'⟩ := ih hl e h2
          exact ⟨j, List.mem_cons_of_mem _ hj, rest'⟩

/-! ## The greedy assignment -/

theorem flagsOf_replicate (n : ℕ) : FlagsOf (List.replicate n false) [] := by
  intro i b h
  rw [List.getElem?_replicate] at h
  split at h
  · cases h; simp
  · cases h

theorem flagsOf_set {flags : List Bool} {used : List ℕ} (h : FlagsOf flags used) (q : ℕ) :
    FlagsOf (flags.set q true) (q :: used) := by
  intro i b hb
  rw [List.getElem?_set] at hb
  by_cases hqi : q = i
  · subst hqi
    simp only [if_true] at hb
    split at hb
    · cases hb; simp
    · cases hb
  · rw [if_neg hqi] at hb
    rw [h i b hb]
    constructor
    · intro hm; exact List.mem_cons_of_mem _ hm
    · intro hm
      rcases List.mem_cons.mp hm with h1 | h1
      · exact absurd h1.symm hqi
      · exact h1

/-- The walk of the source computes the acceptance rule of the spec: when the
flag vectors stand for the indices used so far and every entry indexes inside
them, the walk does not fault, adds the accepted weights to the score and
appends the accepted index pairs. -/
theorem assignLoop_eq :
    ∀ (ms : List PeakMatch) (qU cU : List Bool) (m : SpectrumSpectrumMatch) (used_q used_c : List ℕ),
      FlagsOf qU used_q → FlagsOf cU used_c →
      (∀ e ∈ ms, e.2.1 < qU.length ∧ e.2.2 < cU.length) →
      assignLoop ms qU cU m = some
        ⟨m.candidateIndex, m.score + totalWeight (greedyAccept ms used_q used_c),
          m.peakMatches ++ (greedyAccept ms used_q used_c).map pairOf⟩ := by
  intro ms
  induction ms with
  | nil =>
    intro qU cU m used_q used_c _ _ _
    simp [assignLoop, greedyAccept, totalWeight]
  | cons e rest ih =>
    intro qU cU m used_q used_c hq hc hb
    obtain ⟨hbq, hbc⟩ := hb e (List.mem_cons_self _ _)
    have hrest : ∀ e' ∈ rest, e'.2.1 < qU.length ∧ e'.2.2 < cU.length :=
      fun e' he' => hb e' (List.mem_cons_of_mem _ he')
    rw [assignLoop, greedyAccept]
    have hqe : qU[e.2.1]? = some qU[e.2.1] := List.getElem?_eq_getElem hbq
    have hce : cU[e.2.2]? = some cU[e.2.2] := List.getElem?_eq_getElem hbc
    cases hqv : qU[e.2.1] with
    | true =>
      rw [hqv] at hqe
      have hmem : e.2.1 ∈ used_q := (hq _ _ hqe).mp rfl
      rw [if_pos (Or.inl hmem)]
      simp only [hqe]
      exact ih qU cU m used_q used_c hq hc hrest
    | false =>
      rw [hqv] at hqe
      have hnq : e.2.1 ∉ used_q := fun hm => by
        have := (hq _ _ hqe).mpr hm
        cases this
      cases hcv : cU[e.2.2] with
      | true =>
        rw [hcv] at hce
        have hmem : e.2.2 ∈ used_c := (hc _ _ hce).mp rfl
        rw [if_pos (Or.inr hmem)]
        simp only [hqe, hce]
        exact ih qU cU m used_q used_c hq hc hrest
      | false =>
        rw [hcv] at hce
        have hnc : e.2.2 ∉ used_c := fun hm => by
          have := (hc _ _ hce).mpr hm
          cases this
        rw [if_neg (by simp [hnq, hnc])]
        simp only [hqe, hce]
        rw [ih (qU.set e.2.1 true) (cU.set e.2.2 true) _ (e.2.1 :: used_q) (e.2.2 :: used_c)
          (flagsOf_set hq _) (flagsOf_set hc _)
          (fun e' he' => by simpa [List.length_set] using hrest e' he')]
        simp [SpectrumSpectrumMatch.setScore, SpectrumSpectrumMatch.addPeakMatch,
          SpectrumSpectrumMatch.getScore, totalWeight, pairOf, add_assoc]

/-- The accepted entries are entries of the list, in its order. -/
theorem greedyAccept_sublist :
    ∀ (ms : List PeakMatch) (used_q used_c : List ℕ),
      List.Sublist (greedyAccept ms used_q used_c) ms := by
  intro ms
  induction ms with
  | nil => intro _ _; exact List.Sublist.slnil
  | cons e rest ih =>
    intro used_q used_c
    rw [greedyAccept]
    split
    · exact List.Sublist.cons _ (ih _ _)
    · exact List.Sublist.cons₂ _ (ih _ _)

/-- No accepted entry has a query index used before, and no query index is
accepted twice. -/
theorem greedyAccept_nodup_query :
    ∀ (ms : List PeakMatch) (used_q used_c : List ℕ),
      (∀ e ∈ greedyAccept ms used_q used_c, e.2.1 ∉ used_q) ∧
        ((greedyAccept ms used_q used_c).map fun e => e.2.1).Nodup := by
  intro ms
  induction ms with
  | nil => intro _ _; simp [greedyAccept]
  | cons e rest ih =>
    intro used_q used_c
    rw [greedyAccept]
    split
    · exact ih _ _
    · rename_i hne
      obtain ⟨h1, h2⟩ := ih (e.2.1 :: used_q) (e.2.2 :: used_c)
      constructor
      · intro e' he'
        rcases List.mem_cons.mp he' with rfl | hm
        · exact fun hq => hne (Or.inl hq)
        · exact fun hq => h1 e' hm (List.mem_cons_of_mem _ hq)
      · rw [List.map_cons, List.nodup_cons]
        refine ⟨?_, h2⟩
        intro hm
        obtain ⟨e', he', heq⟩ := List.mem_map.mp hm
        exact h1 e' he' (by rw [heq]; exact List.mem_cons_self _ _)

/-- No accepted entry has a candidate index used before, and no candidate index
is accepted twice. -/
theorem greedyAccept_nodup_candidate :
    ∀ (ms : List PeakMatch) (used_q used_c : List ℕ),
      (∀ e ∈ greedyAccept ms used_q used_c, e.2.2 ∉ used_c) ∧
        ((greedyAccept ms used_q used_c).map fun e => e.2.2).Nodup := by
  intro ms
  induction ms with
  | nil => intro _ _; simp [greedyAccept]
  | cons e rest ih =>
    intro used_q used_c
    rw [greedyAccept]
    split
    · exact ih _ _
    · rename_i hne
      obtain ⟨h1, h2⟩ := ih (e.2.1 :: used_q) (e.2.2 :: used_c)
      constructor
      · intro e' he'
        rcases List.mem_cons.mp he' with rfl | hm
        · exact fun hq => hne (Or.inr hq)
        · exact fun hq => h1 e' hm (List.mem_cons_of_mem _ hq)
      · rw [List.map_cons, List.nodup_cons]
        refine ⟨?_, h2⟩
        intro hm
        obtain ⟨e', he', heq⟩ := List.mem_map.mp hm
        exact h1 e' he' (by rw [heq]; exact List.mem_cons_self _ _)

/-! ## The greedy assignment against any one-to-one selection -/

theorem totalWeight_nil : totalWeight [] = 0 := rfl

theorem totalWeight_cons (e : PeakMatch) (l : List PeakMatch) :
    totalWeight (e :: l) = e.1 + totalWeight l := by
  simp [totalWeight]

/-- A list splits into the entries that pass a test and those that fail it. -/
theorem totalWeight_filter_add_filter_not (p : PeakMatch → Bool) (l : List PeakMatch) :
    totalWeight (l.filter p) + totalWeight (l.filter fun e => !p e) = totalWeight l := by
  induction l with
  | nil => simp [totalWeight_nil]
  | cons x xs ih =>
    by_cases h : p x = true
    · rw [List.filter_cons_of_pos h, List.filter_cons_of_neg (by simp [h]), totalWeight_cons,
        totalWeight_cons]
      linarith
    · rw [List.filter_cons_of_neg h, List.filter_cons_of_pos (by simpa using h), totalWeight_cons,
        totalWeight_cons]
      linarith

theorem totalWeight_nonneg (l : List PeakMatch) (h : ∀ s ∈ l, 0 ≤ s.1) : 0 ≤ totalWeight l := by
  induction l with
  | nil => simp [totalWeight_nil]
  | cons x xs ih =>
    rw [totalWeight_cons]
    have h1 := h x (List.mem_cons_self _ _)
    have h2 := ih fun s hs => h s (List.mem_cons_of_mem _ hs)
    linarith

/-- The entries that pass one of two tests weigh at most the two groups
together, when no weight is negative. -/
theorem totalWeight_filter_or_le (p q : PeakMatch → Bool) (l : List PeakMatch)
    (hnn : ∀ s ∈ l, 0 ≤ s.1) :
    totalWeight (l.filter fun s => p s || q s) ≤
      totalWeight (l.filter p) + totalWeight (l.filter q) := by
  induction l with
  | nil => simp [totalWeight_nil]
  | cons x xs ih =>
    have hx := hnn x (List.mem_cons_self _ _)
    have ih' := ih fun s hs => hnn s (List.mem_cons_of_mem _ hs)
    by_cases hp : p x = true <;> by_cases hq : q x = true <;>
      simp only [List.filter_cons, hp, hq, Bool.or_true, Bool.or_false, Bool.true_or,
        Bool.false_or, if_true, if_false, totalWeight_cons, Bool.false_eq_true] <;> linarith

/-- Among entries with pairwise different keys, those of one key weigh at most
the largest weight. -/
theorem totalWeight_filter_key_le (key : PeakMatch → ℕ) (x : ℕ) (w : ℚ) (hw : 0 ≤ w) :
    ∀ (l : List PeakMatch), (l.map key).Nodup → (∀ s ∈ l, s.1 ≤ w) →
      totalWeight (l.filter fun s => decide (key s = x)) ≤ w := by
  intro l
  induction l with
  | nil => intro _ _; simpa [totalWeight_nil] using hw
  | cons s rest ih =>
    intro hnd hle
    rw [List.map_cons, List.nodup_cons] at hnd
    by_cases hk : key s = x
    · rw [List.filter_cons_of_pos (by simpa using hk), totalWeight_cons]
      have hnil : rest.filter (fun s => decide (key s = x)) = [] := by
        apply List.filter_eq_nil_iff.mpr
        intro s' hs'
        simp only [decide_eq_true_eq]
        intro hk'
        exact hnd.1 (List.mem_map.mpr ⟨s', hs', by rw [hk', hk]⟩)
      rw [hnil, totalWeight_nil, add_zero]
      exact hle s (List.mem_cons_self _ _)
    · rw [List.filter_cons_of_neg (by simpa using hk)]
      exact ih hnd.2 fun s' hs' => hle s' (List.mem_cons_of_mem _ hs')

/-- The greedy assignment over a list sorted by descending weight, with no
negative weight, collects at least half the weight of any selection of entries
of the list that uses no query index and no candidate index twice (and none of
the indices used before). -/
theorem greedyAccept_half :
    ∀ (L : List PeakMatch) (used_q used_c : List ℕ) (sel : List PeakMatch),
      List.Pairwise (fun a b : PeakMatch => ¬ b.1 > a.1) L → (∀ e ∈ L, 0 ≤ e.1) →
      (∀ s ∈ sel, s ∈ L ∧ s.2.1 ∉ used_q ∧ s.2.2 ∉ used_c) →
      (sel.map fun e => e.2.1).Nodup → (sel.map fun e => e.2.2).Nodup →
      totalWeight sel ≤ 2 * totalWeight (greedyAccept L used_q used_c) := by
  intro L
  induction L with
  | nil =>
    intro used_q used_c sel _ _ hsel _ _
    have : sel = [] := by
      apply List.eq_nil_iff_forall_not_mem.mpr
      intro s hs
      exact absurd (hsel s hs).1 (List.not_mem_nil s)
    rw [this, greedyAccept, totalWeight_nil]
    norm_num
  | cons e rest ih =>
    intro used_q used_c sel hsorted hnn hsel hndq hndc
    rw [List.pairwise_cons] at hsorted
    have hnn' : ∀ e' ∈ rest, 0 ≤ e'.1 := fun e' he' => hnn e' (List.mem_cons_of_mem _ he')
    rw [greedyAccept]
    by_cases hblocked : e.2.1 ∈ used_q ∨ e.2.2 ∈ used_c
    · rw [if_pos hblocked]
      apply ih used_q used_c sel hsorted.2 hnn' _ hndq hndc
      intro s hs
      obtain ⟨hmem, hq, hc⟩ := hsel s hs
      refine ⟨?_, hq, hc⟩
      rcases List.mem_cons.mp hmem with rfl | hm
      · rcases hblocked with h | h
        · exact absurd h hq
        · exact absurd h hc
      · exact hm
    · rw [if_neg hblocked, totalWeight_cons]
      have he0 : 0 ≤ e.1 := hnn e (List.mem_cons_self _ _)
      have hle : ∀ s ∈ sel, s.1 ≤ e.1 := by
        intro s hs
        rcases List.mem_cons.mp (hsel s hs).1 with rfl | hm
        · exact le_refl _
        · exact not_lt.mp (hsorted.1 s hm)
      have hselnn : ∀ s ∈ sel, 0 ≤ s.1 := fun s hs => hnn s (hsel s hs).1
      have hsplit := totalWeight_filter_add_filter_not
        (fun s => decide (s.2.1 = e.2.1) || decide (s.2.2 = e.2.2)) sel
      have hconf := totalWeight_filter_or_le (fun s => decide (s.2.1 = e.2.1))
        (fun s => decide (s.2.2 = e.2.2)) sel hselnn
      have hq1 := totalWeight_filter_key_le (fun s => s.2.1) e.2.1 e.1 he0 sel hndq hle
      have hc1 := totalWeight_filter_key_le (fun s => s.2.2) e.2.2 e.1 he0 sel hndc hle
      have hok := ih (e.2.1 :: used_q) (e.2.2 :: used_c)
        (sel.filter fun s => !(decide (s.2.1 = e.2.1) || decide (s.2.2 = e.2.2)))
        hsorted.2 hnn' (by
          intro s hs
          obtain ⟨hs1, hs2⟩ := List.mem_filter.mp hs
          simp only [Bool.not_eq_true', Bool.or_eq_false_iff, decide_eq_false_iff_not] at hs2
          obtain ⟨hmem, hq, hc⟩ := hsel s hs1
          refine ⟨?_, ?_, ?_⟩
          · rcases List.mem_cons.mp hmem with rfl | hm
            · exact absurd rfl hs2.1
            · exact hm
          · intro h
            rcases List.mem_cons.mp h with h | h
            · exact hs2.1 h
            · exact hq h
          · intro h
            rcases List.mem_cons.mp h with h | h
            · exact hs2.2 h
            · exact hc h)
        (List.Nodup.sublist ((List.filter_sublist sel).map _) hndq)
        (List.Nodup.sublist ((List.filter_sublist sel).map _) hndc)
      linarith

/-! ## The working peak list -/

theorem mem_unshiftedPeaks {candidate : Spectrum} {p : Peak} (hp : p ∈ unshiftedPeaks candidate) :
    p.index < candidate.getNumPeaks ∧ p.charge = 0 ∧
      p.mass = candidate.getPeakMass p.index ∧
      p.intensity = candidate.getPeakIntensity p.index := by
  obtain ⟨i, hi, rfl⟩ := List.mem_map.mp hp
  exact ⟨List.mem_range.mp hi, rfl, rfl, rfl⟩

theorem mem_shiftedPeaksOf {candidate : Spectrum} {mass_dif : ℚ} {i : ℕ} {p : Peak}
    (hp : p ∈ shiftedPeaksOf candidate mass_dif i) :
    p.index = i ∧ p.intensity = candidate.getPeakIntensity i ∧
      (chargeBounds candidate i).1 ≤ p.charge ∧ p.charge < (chargeBounds candidate i).2 ∧
      p.mass = candidate.getPeakMass i - mass_dif / (p.charge : ℚ) ∧ 0 < p.mass := by
  unfold shiftedPeaksOf at hp
  obtain ⟨k, hk, hpk⟩ := List.mem_flatMap.mp hp
  rw [List.mem_range'_1] at hk
  by_cases hpos : candidate.getPeakMass i - mass_dif / (k : ℚ) > 0
  · simp only [hpos, if_true, List.mem_singleton] at hpk
    subst hpk
    exact ⟨rfl, rfl, hk.1, by have := hk.2; simp only; omega, rfl, hpos⟩
  · simp only [hpos, if_false, List.not_mem_nil] at hpk

/-- Every shifted charge is at least 1. -/
theorem one_le_chargeBounds (candidate : Spectrum) (i : ℕ) : 1 ≤ (chargeBounds candidate i).1 := by
  unfold chargeBounds
  split
  · rename_i h; exact h
  · exact le_refl 1

/-- Every peak of the working list carries the index and the intensity of a
peak of the candidate. -/
theorem mem_candidatePeaks {S : StdSort} {query candidate : Spectrum} {tol : ℚ} {allow_shift : Bool}
    {p : Peak} (hp : p ∈ candidatePeaks S query candidate tol allow_shift) :
    p.index < candidate.getNumPeaks ∧ p.intensity = candidate.getPeakIntensity p.index := by
  unfold candidatePeaks at hp
  split at hp
  · have hp' := (S.sortPeaks_perm _).subset hp
    rcases List.mem_append.mp hp' with h | h
    · exact ⟨(mem_unshiftedPeaks h).1, (mem_unshiftedPeaks h).2.2.2⟩
    · obtain ⟨i, hi, hpi⟩ := List.mem_flatMap.mp h
      obtain ⟨h1, h2, _⟩ := mem_shiftedPeaksOf hpi
      rw [h1]
      exact ⟨List.mem_range.mp hi, h2⟩
  · exact ⟨(mem_unshiftedPeaks hp).1, (mem_unshiftedPeaks hp).2.2.2⟩

theorem length_unshiftedPeaks (candidate : Spectrum) :
    (unshiftedPeaks candidate).length = candidate.peaks.length := by
  simp [unshiftedPeaks, Spectrum.getNumPeaks]

/-- The working list has at least as many peaks as the candidate. -/
theorem length_candidatePeaks_ge (S : StdSort) (query candidate : Spectrum) (tol : ℚ)
    (allow_shift : Bool) :
    candidate.peaks.length ≤ (candidatePeaks S query candidate tol allow_shift).length := by
  unfold candidatePeaks
  split
  · rw [(S.sortPeaks_perm _).length_eq, List.length_append, length_unshiftedPeaks]
    exact Nat.le_add_right _ _
  · rw [length_unshiftedPeaks]

/-- The working list of a candidate without peaks is empty. -/
theorem candidatePeaks_of_peaks_nil (S : StdSort) (query candidate : Spectrum) (tol : ℚ)
    (allow_shift : Bool) (h : candidate.peaks = []) :
    candidatePeaks S query candidate tol allow_shift = [] := by
  unfold candidatePeaks
  split
  · apply List.eq_nil_of_length_eq_zero
    rw [(S.sortPeaks_perm _).length_eq]
    simp [unshiftedPeaks, Spectrum.getNumPeaks, h]
  · simp [unshiftedPeaks, Spectrum.getNumPeaks, h]

/-! ## One candidate -/

/-- The entries of the match list index inside the two flag vectors. -/
theorem matchPeaks_bounds {S : StdSort} {query candidate : Spectrum} {tol : ℚ} {allow_shift : Bool}
    {pm : List PeakMatch}
    (h : matchPeaks (candidatePeaks S query candidate tol allow_shift) query tol = some pm) :
    ∀ e ∈ pm, e.2.1 < query.getNumPeaks ∧ e.2.2 < candidate.getNumPeaks ∧
      e.1 = query.getPeakIntensity e.2.1 * candidate.getPeakIntensity e.2.2 := by
  intro e he
  obtain ⟨i, hi, p, hp, _, _, rfl⟩ := mem_matchLoop h e he
  obtain ⟨h1, h2⟩ := mem_candidatePeaks hp
  exact ⟨List.mem_range.mp hi, h1, by simp [entryOf, h2]⟩

/-- The evaluation of a candidate whose matching loop does not fault: the
greedy assignment over the sorted match list. -/
theorem scoreCandidate_eq {S : StdSort} {query candidate : Spectrum} {i : ℕ} {tol : ℚ}
    {allow_shift : Bool} {pm : List PeakMatch}
    (h : matchPeaks (candidatePeaks S query candidate tol allow_shift) query tol = some pm) :
    scoreCandidate S query candidate i tol allow_shift = some
      ⟨i, totalWeight (greedyAccept (S.sortMatches pm) [] []),
        (greedyAccept (S.sortMatches pm) [] []).map pairOf⟩ := by
  unfold scoreCandidate
  simp only [h]
  rw [assignLoop_eq _ _ _ _ [] [] (flagsOf_replicate _) (flagsOf_replicate _)]
  · simp [SpectrumSpectrumMatch.new]
  · intro e he
    have := matchPeaks_bounds h e ((S.sortMatches_perm pm).subset he)
    simpa using ⟨this.1, this.2.1⟩

/-- A candidate without peaks makes the matching loop fault as soon as the
query has a peak. -/
theorem scoreCandidate_fault (S : StdSort) (query candidate : Spectrum) (i : ℕ) (tol : ℚ)
    (allow_shift : Bool) (hc : candidate.peaks = []) (hq : query.peaks ≠ []) :
    scoreCandidate S query candidate i tol allow_shift = none := by
  unfold scoreCandidate matchPeaks
  rw [candidatePeaks_of_peaks_nil S query candidate tol allow_shift hc]
  have hn : query.getNumPeaks = (query.getNumPeaks - 1) + 1 := by
    have : 0 < query.peaks.length := List.length_pos.mpr hq
    unfold Spectrum.getNumPeaks; omega
  rw [hn, List.range_succ_eq_map, matchLoop_nil_cons]

/-- The matching loop does not fault when the candidate has a peak or the
query has none. -/
theorem matchPeaks_some (S : StdSort) (query candidate : Spectrum) (tol : ℚ) (allow_shift : Bool)
    (h : candidate.peaks ≠ [] ∨ query.peaks = []) :
    ∃ pm, matchPeaks (candidatePeaks S query candidate tol allow_shift) query tol = some pm := by
  rcases h with h | h
  · apply matchLoop_some
    have h1 := length_candidatePeaks_ge S query candidate tol allow_shift
    have h2 : 0 < candidate.peaks.length := List.length_pos.mpr h
    omega
  · exact ⟨[], by simp [matchPeaks, Spectrum.getNumPeaks, h, matchLoop]⟩

/-- The evaluation of a candidate returns a match when the candidate has a
peak or the query has none. -/
theorem scoreCandidate_some (S : StdSort) (query candidate : Spectrum) (i : ℕ) (tol : ℚ)
    (allow_shift : Bool) (h : candidate.peaks ≠ [] ∨ query.peaks = []) :
    ∃ m, scoreCandidate S query candidate i tol allow_shift = some m := by
  obtain ⟨pm, hpm⟩ := matchPeaks_some S query candidate tol allow_shift h
  exact ⟨_, scoreCandidate_eq hpm⟩

/-- A returned match of one candidate is the greedy assignment over its sorted
match list. -/
theorem scoreCandidate_inv {S : StdSort} {query candidate : Spectrum} {i : ℕ} {tol : ℚ}
    {allow_shift : Bool} {m : SpectrumSpectrumMatch}
    (h : scoreCandidate S query candidate i tol allow_shift = some m) :
    ∃ pm, matchPeaks (candidatePeaks S query candidate tol allow_shift) query tol = some pm ∧
      m = ⟨i, totalWeight (greedyAccept (S.sortMatches pm) [] []),
        (greedyAccept (S.sortMatches pm) [] []).map pairOf⟩ := by
  cases hpm : matchPeaks (candidatePeaks S query candidate tol allow_shift) query tol with
  | none => simp [scoreCandidate, hpm] at h
  | some pm =>
    refine ⟨pm, rfl, ?_⟩
    rw [scoreCandidate_eq hpm] at h
    exact (Option.some.inj h).symm

/-! ## The candidate loop -/

theorem retain_cases (best : Option SpectrumSpectrumMatch) (t : SpectrumSpectrumMatch) :
    t.score ≤ (retain best t).score ∧
      (∀ b, best = some b → b.score ≤ (retain best t).score) ∧
      ((∃ b, best = some b ∧ retain best t = b) ∨
        (retain best t = t ∧ ∀ b, best = some b → b.score < t.score)) := by
  cases best with
  | none => simp [retain]
  | some b =>
    by_cases h : b.score < t.score
    · simp [retain, SpectrumSpectrumMatch.getScore, h, le_of_lt h]
    · simp [retain, SpectrumSpectrumMatch.getScore, h, not_lt.mp h]

/-- The invariant of the candidate loop: every candidate is scored, the
result is at least every score and the incoming best, and it is the incoming
best or the first candidate that beats the incoming best and all before it. -/
theorem dotLoop_spec (S : StdSort) (query : Spectrum) (tol : ℚ) (allow_shift : Bool) :
    ∀ (cands : List Spectrum) (k : ℕ) (best r : Option SpectrumSpectrumMatch),
      dotLoop S query tol allow_shift cands k best = some r →
      (∀ j cj, cands[j]? = some cj →
        ∃ mj, scoreCandidate S query cj (k + j) tol allow_shift = some mj ∧
          ∃ m, r = some m ∧ mj.score ≤ m.score) ∧
      (∀ b, best = some b → ∃ m, r = some m ∧ b.score ≤ m.score) ∧
      (r = best ∨ ∃ i ci m, cands[i]? = some ci ∧
        scoreCandidate S query ci (k + i) tol allow_shift = some m ∧ r = some m ∧
        (∀ b, best = some b → b.score < m.score) ∧
        (∀ j cj mj, j < i → cands[j]? = some cj →
          scoreCandidate S query cj (k + j) tol allow_shift = some mj → mj.score < m.score)) := by
  intro cands
  induction cands with
  | nil =>
    intro k best r h
    simp only [dotLoop, Option.some.injEq] at h
    subst h
    refine ⟨?_, ?_, Or.inl rfl⟩
    · intro j cj hj; simp at hj
    · intro b hb; exact ⟨b, hb, le_refl _⟩
  | cons c rest ih =>
    intro k best r h
    rw [dotLoop] at h
    cases ht : scoreCandidate S query c k tol allow_shift with
    | none => simp [ht] at h
    | some t =>
      simp only [ht] at h
      obtain ⟨hA, hB, hC⟩ := ih (k + 1) (some (retain best t)) r h
      obtain ⟨m, hrm, hbm⟩ := hB _ rfl
      obtain ⟨ht1, ht2, ht3⟩ := retain_cases best t
      refine ⟨?_, ?_, ?_⟩
      · intro j cj hj
        cases j with
        | zero =>
          simp only [List.getElem?_cons_zero, Option.some.injEq] at hj
          subst hj
          exact ⟨t, ht, m, hrm, le_trans ht1 hbm⟩
        | succ j =>
          simp only [List.getElem?_cons_succ] at hj
          have := hA j cj hj
          rwa [show k + 1 + j = k + (j + 1) by omega] at this
      · intro b hb
        exact ⟨m, hrm, le_trans (ht2 b hb) hbm⟩
      · rcases hC with hC | ⟨i, ci, m', hi, hsc, hr, hbest, hearlier⟩
        · rcases ht3 with ⟨b, hb, hret⟩ | ⟨hret, hlt⟩
          · left; rw [hC, hret, hb]
          · right
            refine ⟨0, c, t, by simp, ht, by rw [hC, hret], hlt, ?_⟩
            intro j cj mj hj; omega
        · right
          have hlt' : (retain best t).score < m'.score := hbest _ rfl
          refine ⟨i + 1, ci, m', by simpa using hi, ?_, hr, ?_, ?_⟩
          · rwa [show k + (i + 1) = k + 1 + i by omega]
          · intro b hb; exact lt_of_le_of_lt (ht2 b hb) hlt'
          · intro j cj mj hj hcj hmj
            cases j with
            | zero =>
              simp only [List.getElem?_cons_zero, Option.some.injEq] at hcj
              subst hcj
              rw [Nat.add_zero, ht] at hmj
              cases hmj
              exact lt_of_le_of_lt ht1 hlt'
            | succ j =>
              simp only [List.getElem?_cons_succ] at hcj
              exact hearlier j cj mj (by omega) hcj
                (by rwa [show k + 1 + j = k + (j + 1) by omega])

/-- The candidate loop does not fault when every evaluation returns. -/
theorem dotLoop_some (S : StdSort) (query : Spectrum) (tol : ℚ) (allow_shift : Bool) :
    ∀ (cands : List Spectrum) (k : ℕ) (best : Option SpectrumSpectrumMatch),
      NoEmptyCandidate query cands →
      ∃ r, dotLoop S query tol allow_shift cands k best = some r := by
  intro cands
  induction cands with
  | nil => intro k best _; exact ⟨best, rfl⟩
  | cons c rest ih =>
    intro k best h
    obtain ⟨t, ht⟩ := scoreCandidate_some S query c k tol allow_shift (h c (List.mem_cons_self _ _))
    obtain ⟨r, hr⟩ := ih (k + 1) (some (retain best t))
      (fun c' hc' => h c' (List.mem_cons_of_mem _ hc'))
    exact ⟨r, by rw [dotLoop]; simp only [ht]; exact hr⟩

/-- The candidate loop faults when a candidate without peaks meets a query
with a peak. -/
theorem dotLoop_fault (S : StdSort) (query : Spectrum) (tol : ℚ) (allow_shift : Bool) :
    ∀ (cands : List Spectrum) (k : ℕ) (best : Option SpectrumSpectrumMatch),
      ¬ NoEmptyCandidate query cands →
      dotLoop S query tol allow_shift cands k best = none := by
  intro cands
  induction cands with
  | nil => intro k best h; exact absurd (fun c hc => by simp at hc) h
  | cons c rest ih =>
    intro k best h
    rw [dotLoop]
    by_cases hc : c.peaks ≠ [] ∨ query.peaks = []
    · obtain ⟨t, ht⟩ := scoreCandidate_some S query c k tol allow_shift hc
      simp only [ht]
      apply ih
      intro hrest
      apply h
      intro c' hc'
      rcases List.mem_cons.mp hc' with rfl | hm
      · exact hc
      · exact hrest c' hm
    · push_neg at hc
      rw [scoreCandidate_fault S query c k tol allow_shift hc.1 hc.2]

/-- A call of `dot` returns (a match or `NULL`) exactly when no candidate
without peaks meets a query with a peak; otherwise it faults. -/
theorem dot_returns_iff (S : StdSort) (query : Spectrum) (cands : List Spectrum) (tol : ℚ)
    (allow_shift : Bool) :
    (∃ r, dot S query cands tol allow_shift = some r) ↔ NoEmptyCandidate query cands := by
  constructor
  · rintro ⟨r, hr⟩
    by_contra hne
    rw [dot, dotLoop_fault S query tol allow_shift cands 0 none hne] at hr
    cases hr
  · intro h
    exact dotLoop_some S query tol allow_shift cands 0 none h

/-- A match returned by `dot` is the evaluation of one of the candidates, at
its position. -/
theorem dot_some_scored {S : StdSort} {query : Spectrum} {cands : List Spectrum} {tol : ℚ}
    {allow_shift : Bool} {m : SpectrumSpectrumMatch}
    (h : dot S query cands tol allow_shift = some (some m)) :
    ∃ i c, cands[i]? = some c ∧ scoreCandidate S query c i tol allow_shift = some m := by
  obtain ⟨_, _, hC⟩ := dotLoop_spec S query tol allow_shift cands 0 none (some m) h
  rcases hC with hC | ⟨i, ci, m', hi, hsc, hr, _, _⟩
  · cases hC
  · cases hr
    exact ⟨i, ci, hi, by simpa using hsc⟩

/-- The index pairs and the score of an evaluated candidate. -/
theorem scoreCandidate_fields {S : StdSort} {query candidate : Spectrum} {i : ℕ} {tol : ℚ}
    {allow_shift : Bool} {m : SpectrumSpectrumMatch}
    (h : scoreCandidate S query candidate i tol allow_shift = some m) :
    ∃ pm, matchPeaks (candidatePeaks S query candidate tol allow_shift) query tol = some pm ∧
      m.candidateIndex = i ∧
      m.score = totalWeight (greedyAccept (S.sortMatches pm) [] []) ∧
      m.peakMatches = (greedyAccept (S.sortMatches pm) [] []).map pairOf := by
  obtain ⟨pm, hpm, rfl⟩ := scoreCandidate_inv h
  exact ⟨pm, hpm, rfl, rfl, rfl⟩

/-- A match returned by `dot` is the evaluation of the first candidate of
maximal score. -/
theorem dot_some_selected {S : StdSort} {query : Spectrum} {cands : List Spectrum} {tol : ℚ}
    {allow_shift : Bool} {m : SpectrumSpectrumMatch}
    (h : dot S query cands tol allow_shift = some (some m)) :
    ∃ i c, cands[i]? = some c ∧ scoreCandidate S query c i tol allow_shift = some m ∧
      m.candidateIndex = i ∧
      ∀ j cj, cands[j]? = some cj →
        ∃ mj, scoreCandidate S query cj j tol allow_shift = some mj ∧ mj.score ≤ m.score ∧
          (j < i → mj.score < m.score) := by
  obtain ⟨hA, _, hC⟩ := dotLoop_spec S query tol allow_shift cands 0 none (some m) h
  rcases hC with hC | ⟨i, ci, m', hi, hsc, hr, _, hearlier⟩
  · cases hC
  · cases hr
    rw [Nat.zero_add] at hsc
    obtain ⟨_, _, hidx, _, _⟩ := scoreCandidate_fields hsc
    refine ⟨i, ci, hi, hsc, hidx, ?_⟩
    intro j cj hj
    obtain ⟨mj, hmj, m2, hm2, hle⟩ := hA j cj hj
    cases hm2
    rw [Nat.zero_add] at hmj
    refine ⟨mj, hmj, hle, fun hji => ?_⟩
    exact hearlier j cj mj hji hj (by rwa [Nat.zero_add])

/-! ## The content and the order of the working peak list -/

/-- A loop over the positions of a list that reads the list at the position is
a loop over the list paired with its positions. -/
theorem map_range_eq_map_enum {α β : Type} (l : List α) (F : ℕ → β) (G : ℕ → α → β)
    (h : ∀ i p, l[i]? = some p → F i = G i p) :
    (List.range l.length).map F = l.enum.map fun ip => G ip.1 ip.2 := by
  apply List.ext_getElem
  · simp
  · intro n h1 h2
    simp only [List.getElem_map, List.getElem_range, List.getElem_enum]
    have hn : n < l.length := by simpa using h1
    exact h n l[n] (List.getElem?_eq_getElem hn)

/-- The unshifted copies, peak by peak. -/
theorem unshiftedPeaks_eq_enum (candidate : Spectrum) :
    unshiftedPeaks candidate =
      candidate.peaks.enum.map fun ip => Peak.mk ip.2.mass ip.2.intensity 0 ip.1 := by
  unfold unshiftedPeaks Spectrum.getNumPeaks
  apply map_range_eq_map_enum candidate.peaks _ fun i p => Peak.mk p.mass p.intensity 0 i
  intro i p hp
  rw [getPeakMass_of_getElem? hp, getPeakIntensity_of_getElem? hp]

/-- The charges from 1 below `n`. -/
theorem filter_range_one_le (n : ℕ) :
    (List.range n).filter (fun k : ℕ => decide (1 ≤ k)) = List.range' 1 (n - 1) := by
  cases n with
  | zero => rfl
  | succ m =>
    rw [List.range_succ_eq_map, List.filter_cons_of_neg (by simp), Nat.add_sub_cancel,
      List.range'_eq_map_range, List.filter_eq_self.mpr]
    · apply List.map_congr_left
      intro a _
      omega
    · intro a ha
      obtain ⟨b, _, rfl⟩ := List.mem_map.mp ha
      simp

/-- The shifted copies the source builds for one candidate peak are the ones
the spec lists, those of positive mass. -/
theorem shiftedPeaksOf_eq_spec (candidate : Spectrum) (mass_dif : ℚ) (i : ℕ) (p : SpectrumPeak)
    (hp : candidate.peaks[i]? = some p) :
    shiftedPeaksOf candidate mass_dif i =
      (shiftSpecOf candidate mass_dif i p).filter fun x => decide (0 < x.mass) := by
  unfold shiftedPeaksOf shiftSpecOf chargeBounds
  rw [getPeakCharge_of_getElem? hp, getPeakMass_of_getElem? hp, getPeakIntensity_of_getElem? hp]
  by_cases hc : 0 < p.charge
  · have hc' : p.charge > 0 := hc
    simp only [hc, hc', if_true, Nat.add_sub_cancel_left, List.range'_one, List.flatMap_cons,
      List.flatMap_nil, List.append_nil, List.filter_cons, List.filter_nil, gt_iff_lt,
      decide_eq_true_eq]
  · have hc' : ¬ p.charge > 0 := hc
    simp only [hc, hc', if_false, filter_range_one_le, Spectrum.getPrecursorCharge,
      List.filter_map, List.flatMap_def]
    rw [← List.flatMap_def]
    generalize List.range' 1 (candidate.precursorCharge - 1) = ks
    induction ks with
    | nil => rfl
    | cons k ks ih =>
      rw [List.flatMap_cons, ih, List.filter_cons]
      by_cases hk : p.mass - mass_dif / (k : ℚ) > 0
      · simp [hk]
      · simp [hk]

/-- The shifted peaks of all candidate peaks, as the spec lists them. -/
theorem shifted_eq_spec (candidate : Spectrum) (mass_dif : ℚ) :
    (List.range candidate.getNumPeaks).flatMap (shiftedPeaksOf candidate mass_dif) =
      (candidate.peaks.enum.flatMap fun ip => shiftSpecOf candidate mass_dif ip.1 ip.2).filter
        fun x => decide (0 < x.mass) := by
  rw [List.filter_flatMap, List.flatMap_def, List.flatMap_def]
  congr 1
  exact map_range_eq_map_enum candidate.peaks _
    (fun i p => (shiftSpecOf candidate mass_dif i p).filter fun x => decide (0 < x.mass))
    (fun i p hp => shiftedPeaksOf_eq_spec candidate mass_dif i p hp)

/-- Without shifted peaks the working list is the candidate's peaks in their
order. -/
theorem candidatePeaks_noshift (S : StdSort) (query candidate : Spectrum) (tol : ℚ)
    (allow_shift : Bool) (h : ¬ (allow_shift = true ∧ massDif query candidate > tol)) :
    candidatePeaks S query candidate tol allow_shift = unshiftedPeaks candidate := by
  unfold candidatePeaks
  rw [if_neg h]

theorem unshiftedPeaks_sorted (candidate : Spectrum) (h : candidate.MassSorted) :
    List.Pairwise (fun a b : Peak => a.mass ≤ b.mass) (unshiftedPeaks candidate) := by
  rw [unshiftedPeaks_eq_enum, List.pairwise_map]
  have h' : List.Pairwise (fun a b : SpectrumPeak => a.mass ≤ b.mass)
      (candidate.peaks.enum.map Prod.snd) := by
    rw [List.enum_map_snd]; exact h
  rw [List.pairwise_map] at h'
  exact h'

/-! ## Exactness of the matching loop on sorted peaks -/

/-- The three-branch test of the source is the compatibility table of the
spec. -/
theorem canMatch_iff (q c : ℕ) : canMatch q c = true ↔ ChargeCompatible q c := by
  unfold canMatch ChargeCompatible
  by_cases hc : c = 0
  · simp [hc]
  · by_cases hq : q = 0
    · simp [hc, hq]
    · by_cases hqc : q = c
      · simp [hc, hq, hqc]
      · simp [hc, hq, hqc]

/-- In a sorted list whose masses are all at or above the lower end of the
window, or that has one peak, the peaks within the tolerance are a prefix. -/
theorem filter_window_eq_takeWhile (qm tol : ℚ) :
    ∀ (l : List Peak), List.Pairwise (fun a b : Peak => a.mass ≤ b.mass) l →
      (l.length ≤ 1 ∨ ∀ p ∈ l, qm - tol ≤ p.mass) →
      l.filter (fun p => decide (|qm - p.mass| ≤ tol)) =
        l.takeWhile fun p => decide (|qm - p.mass| ≤ tol) := by
  intro l
  induction l with
  | nil => intro _ _; rfl
  | cons x xs ih =>
    intro hs hlow
    rw [List.pairwise_cons] at hs
    by_cases hx : |qm - x.mass| ≤ tol
    · rw [List.filter_cons_of_pos (by simpa using hx), List.takeWhile_cons_of_pos (by simpa using hx)]
      congr 1
      apply ih hs.2
      rcases hlow with h1 | h2
      · left
        simp only [List.length_cons] at h1
        omega
      · right
        exact fun p hp => h2 p (List.mem_cons_of_mem _ hp)
    · rw [List.filter_cons_of_neg (by simpa using hx),
        List.takeWhile_cons_of_neg (by simpa using hx)]
      rcases hlow with h1 | h2
      · have : xs = [] := by
          apply List.eq_nil_of_length_eq_zero
          simp only [List.length_cons] at h1
          omega
        rw [this]; rfl
      · apply List.filter_eq_nil_iff.mpr
        intro p hp
        have hxlow := h2 x (List.mem_cons_self _ _)
        have hxp := hs.1 p hp
        have hxhigh : qm + tol < x.mass := by
          by_contra hcon
          apply hx
          rw [abs_le]
          constructor <;> linarith
        simp only [decide_eq_true_eq, abs_le, not_and, not_le]
        intro _
        linarith

/-- At a cursor that has passed only peaks below the window, and that stands
on the last peak or on a peak at or above the lower end of the window, the
window scan finds all the peaks within the tolerance. -/
theorem takeWhile_drop_eq_filter (peaks : List Peak) (qm tol : ℚ) (k : ℕ)
    (hs : List.Pairwise (fun a b : Peak => a.mass ≤ b.mass) peaks) (hk : k < peaks.length)
    (hbelow : ∀ j p, j < k → peaks[j]? = some p → p.mass < qm - tol)
    (hstop : k < peaks.length - 1 → ∀ p, peaks[k]? = some p → ¬ qm - tol > p.mass) :
    (peaks.drop k).takeWhile (fun p => decide (|qm - p.mass| ≤ tol)) =
      peaks.filter fun p => decide (|qm - p.mass| ≤ tol) := by
  have hsplit : peaks = peaks.take k ++ peaks.drop k := (List.take_append_drop k peaks).symm
  have hs' := hs
  rw [hsplit, List.pairwise_append] at hs'
  obtain ⟨_, hsd, _⟩ := hs'
  conv_rhs => rw [hsplit, List.filter_append]
  have htake : (peaks.take k).filter (fun p => decide (|qm - p.mass| ≤ tol)) = [] := by
    apply List.filter_eq_nil_iff.mpr
    intro p hp
    obtain ⟨j, hj, rfl⟩ := List.getElem_of_mem hp
    have hjk : j < k := by
      have := hj
      rw [List.length_take] at this
      omega
    have hjl : j < peaks.length := by omega
    have hlt := hbelow j (peaks.take k)[j] hjk (by
      rw [List.getElem_take, List.getElem?_eq_getElem hjl])
    simp only [decide_eq_true_eq, abs_le, not_and, not_le]
    intro _
    linarith
  rw [htake, List.nil_append]
  symm
  apply filter_window_eq_takeWhile qm tol _ hsd
  by_cases hlast : k < peaks.length - 1
  · right
    intro p hp
    have hkk : peaks[k]? = some peaks[k] := List.getElem?_eq_getElem hk
    have h0 := hstop hlast _ hkk
    have hdrop : peaks.drop k = peaks[k] :: peaks.drop (k + 1) := List.drop_eq_getElem_cons hk
    rw [hdrop] at hp hsd
    rw [List.pairwise_cons] at hsd
    rcases List.mem_cons.mp hp with rfl | hm
    · exact not_lt.mp h0
    · exact le_trans (not_lt.mp h0) (hsd.1 p hm)
  · left
    rw [List.length_drop]
    omega

/-- Completeness of the matching loop on sorted lists: with the cursor on a
position that has passed only peaks below the windows of the remaining query
peaks, the loop returns the full windows of the remaining query peaks. -/
theorem matchLoop_exact (peaks : List Peak) (query : Spectrum) (tol : ℚ)
    (hs : List.Pairwise (fun a b : Peak => a.mass ≤ b.mass) peaks)
    (hlen : peaks.length < 2 ^ 32) :
    ∀ (qis : List ℕ) (cursor : ℕ),
      List.Pairwise (fun a b : ℕ => query.getPeakMass a ≤ query.getPeakMass b) qis →
      cursor < peaks.length →
      (∀ j p, j < cursor → peaks[j]? = some p → ∀ i ∈ qis, p.mass < query.getPeakMass i - tol) →
      matchLoop peaks query tol qis cursor = some (qis.flatMap (windowOf peaks query tol)) := by
  intro qis
  induction qis with
  | nil => intro cursor _ _ _; rfl
  | cons i rest ih =>
    intro cursor hq hc hinv
    rw [List.pairwise_cons] at hq
    obtain ⟨k, hk, hck, hklt, hbelow, hstop⟩ :=
      advanceCursor_some peaks (query.getPeakMass i) tol cursor hc
    rw [sizeMinusOne_eq (by omega) hlen] at hstop
    have hall : ∀ j p, j < k → peaks[j]? = some p → p.mass < query.getPeakMass i - tol := by
      intro j p hjk hp
      by_cases hjc : j < cursor
      · exact hinv j p hjc hp i (List.mem_cons_self _ _)
      · exact hbelow j p (by omega) hjk hp
    have hrest := ih k hq.2 hklt (fun j p hjk hp i' hi' => by
      have h1 := hall j p hjk hp
      have h2 := hq.1 i' hi'
      linarith)
    rw [matchLoop]
    simp only [hk, hrest]
    rw [scanWindow_eq peaks _ _ _ _ tol k _ 0 rfl, Nat.add_zero,
      takeWhile_drop_eq_filter peaks _ tol k hs hklt hall hstop, List.flatMap_cons]
    rfl

/-- The entries the spec asks for one query peak are the window of the query
peak. -/
theorem matchSpec_inner_eq (peaks : List Peak) (query : Spectrum) (tol : ℚ) (i : ℕ) :
    (peaks.enum.flatMap fun jp =>
      if |query.getPeakMass i - jp.2.mass| ≤ tol ∧
          ChargeCompatible (query.getPeakCharge i) jp.2.charge
      then [(query.getPeakIntensity i * jp.2.intensity, i, jp.2.index)]
      else []) = windowOf peaks query tol i := by
  have h : (peaks.enum.flatMap fun jp =>
      if |query.getPeakMass i - jp.2.mass| ≤ tol ∧
          ChargeCompatible (query.getPeakCharge i) jp.2.charge
      then [(query.getPeakIntensity i * jp.2.intensity, i, jp.2.index)]
      else []) = (peaks.enum.map Prod.snd).flatMap fun p =>
      if |query.getPeakMass i - p.mass| ≤ tol ∧ ChargeCompatible (query.getPeakCharge i) p.charge
      then [(query.getPeakIntensity i * p.intensity, i, p.index)]
      else [] := by
    rw [List.flatMap_def, List.flatMap_def, List.map_map]
    rfl
  rw [h, List.enum_map_snd]
  clear h
  unfold windowOf
  induction peaks with
  | nil => rfl
  | cons x xs ih =>
    rw [List.flatMap_cons, ih]
    by_cases h1 : |query.getPeakMass i - x.mass| ≤ tol
    · by_cases h2 : canMatch (query.getPeakCharge i) x.charge = true
      · have h3 := (canMatch_iff _ _).mp h2
        simp [List.filter_cons, h1, h2, h3, entryOf]
      · have h3 : ¬ ChargeCompatible (query.getPeakCharge i) x.charge :=
          fun h => h2 ((canMatch_iff _ _).mpr h)
        simp [List.filter_cons, h1, h2, h3]
    · simp [List.filter_cons, h1]

/-- The match list of the spec, by windows. -/
theorem matchSpec_eq (peaks : List Peak) (query : Spectrum) (tol : ℚ) :
    matchSpec peaks query tol =
      (List.range query.getNumPeaks).flatMap (windowOf peaks query tol) := by
  unfold matchSpec
  congr 1
  funext i
  exact matchSpec_inner_eq peaks query tol i

/-- The query peaks are visited in ascending order of mass. -/
theorem range_sorted_of_massSorted (query : Spectrum) (h : query.MassSorted) :
    List.Pairwise (fun a b : ℕ => query.getPeakMass a ≤ query.getPeakMass b)
      (List.range query.getNumPeaks) := by
  apply List.Pairwise.imp_of_mem _ (List.pairwise_lt_range query.getNumPeaks)
  intro a b ha hb hab
  have ha' : a < query.peaks.length := List.mem_range.mp ha
  have hb' : b < query.peaks.length := List.mem_range.mp hb
  rw [getPeakMass_of_getElem? (List.getElem?_eq_getElem ha'),
    getPeakMass_of_getElem? (List.getElem?_eq_getElem hb')]
  exact List.pairwise_iff_getElem.mp h a b ha' hb' hab

/-! ## Shifting adds matching opportunities -/

/-- The entries of a window. -/
theorem mem_windowOf {peaks : List Peak} {query : Spectrum} {tol : ℚ} {i : ℕ} {e : PeakMatch} :
    e ∈ windowOf peaks query tol i ↔
      ∃ p ∈ peaks, |query.getPeakMass i - p.mass| ≤ tol ∧
        canMatch (query.getPeakCharge i) p.charge = true ∧
        e = entryOf (query.getPeakIntensity i) i p := by
  unfold windowOf
  constructor
  · intro h
    obtain ⟨p, hp, rfl⟩ := List.mem_map.mp h
    obtain ⟨hp1, hp2⟩ := List.mem_filter.mp hp
    obtain ⟨hp3, hp4⟩ := List.mem_filter.mp hp1
    exact ⟨p, hp3, by simpa using hp4, hp2, rfl⟩
  · rintro ⟨p, hp, hm, hc, rfl⟩
    exact List.mem_map.mpr ⟨p, List.mem_filter.mpr ⟨List.mem_filter.mpr ⟨hp, by simpa using hm⟩, hc⟩,
      rfl⟩

/-- Every unshifted copy is in the working list, shifted peaks or not. -/
theorem unshiftedPeaks_subset (S : StdSort) (query candidate : Spectrum) (tol : ℚ)
    (allow_shift : Bool) {p : Peak} (hp : p ∈ unshiftedPeaks candidate) :
    p ∈ candidatePeaks S query candidate tol allow_shift := by
  unfold candidatePeaks
  split
  · exact (S.sortPeaks_perm _).symm.subset (List.mem_append_left _ hp)
  · exact hp

/-- Shifting only adds matching opportunities: for a sorted query, every entry
of the match list of a candidate built without shifting is an entry of the
match list built with shifting. -/
theorem matchPeaks_noshift_subset (S : StdSort) (query candidate : Spectrum) (tol : ℚ)
    (pm0 pm1 : List PeakMatch) (hq : query.MassSorted)
    (hlen : (candidatePeaks S query candidate tol true).length < 2 ^ 32)
    (h0 : matchPeaks (candidatePeaks S query candidate tol false) query tol = some pm0)
    (h1 : matchPeaks (candidatePeaks S query candidate tol true) query tol = some pm1) :
    ∀ e ∈ pm0, e ∈ pm1 := by
  intro e he
  by_cases hs : massDif query candidate > tol
  · obtain ⟨i, hi, p, hp, hm, hc, rfl⟩ := mem_matchLoop h0 e he
    have hp0 : p ∈ unshiftedPeaks candidate := by
      rwa [candidatePeaks_noshift S query candidate tol false (by simp)] at hp
    have hp1 := unshiftedPeaks_subset S query candidate tol true hp0
    have hsorted : List.Pairwise (fun a b : Peak => a.mass ≤ b.mass)
        (candidatePeaks S query candidate tol true) := by
      unfold candidatePeaks
      rw [if_pos ⟨rfl, hs⟩]
      exact List.Pairwise.imp (fun hab => not_lt.mp hab) (S.sortPeaks_ordered _)
    have hex := matchLoop_exact _ query tol hsorted hlen _ 0
      (range_sorted_of_massSorted query hq) (List.length_pos_of_mem hp1)
      (fun j p hj => absurd hj (Nat.not_lt_zero j))
    unfold matchPeaks at h1
    rw [hex] at h1
    cases h1
    exact List.mem_flatMap.mpr ⟨i, hi, mem_windowOf.mpr ⟨p, hp1, hm, hc, rfl⟩⟩
  · have heq : candidatePeaks S query candidate tol true =
        candidatePeaks S query candidate tol false := by
      rw [candidatePeaks_noshift S query candidate tol true (fun h => hs h.2),
        candidatePeaks_noshift S query candidate tol false (by simp)]
    rw [heq, h0] at h1
    cases h1
    exact he

theorem getPeakIntensity_nonneg (s : Spectrum) (h : ∀ p ∈ s.peaks, 0 ≤ p.intensity) (i : ℕ) :
    0 ≤ s.getPeakIntensity i := by
  unfold Spectrum.getPeakIntensity
  cases hp : s.peaks[i]? with
  | none => simp
  | some p => exact h p (List.getElem?_mem hp)

/-- With shifting a candidate scores at least half of what it scores without,
for a sorted query and non-negative intensities. -/
theorem scoreCandidate_shift_half (S : StdSort) (query candidate : Spectrum) (i j : ℕ) (tol : ℚ)
    (m0 m1 : SpectrumSpectrumMatch) (hq : query.MassSorted)
    (hqi : ∀ p ∈ query.peaks, 0 ≤ p.intensity) (hci : ∀ p ∈ candidate.peaks, 0 ≤ p.intensity)
    (hlen : (candidatePeaks S query candidate tol true).length < 2 ^ 32)
    (h0 : scoreCandidate S query candidate i tol false = some m0)
    (h1 : scoreCandidate S query candidate j tol true = some m1) :
    m0.score ≤ 2 * m1.score := by
  obtain ⟨pm0, hpm0, _, hs0, _⟩ := scoreCandidate_fields h0
  obtain ⟨pm1, hpm1, _, hs1, _⟩ := scoreCandidate_fields h1
  rw [hs0, hs1]
  have hsub := matchPeaks_noshift_subset S query candidate tol pm0 pm1 hq hlen hpm0 hpm1
  apply greedyAccept_half (S.sortMatches pm1) [] [] _ (S.sortMatches_ordered pm1)
  · intro e he
    have hb := matchPeaks_bounds hpm1 e ((S.sortMatches_perm pm1).subset he)
    rw [hb.2.2]
    exact mul_nonneg (getPeakIntensity_nonneg query hqi _) (getPeakIntensity_nonneg candidate hci _)
  · intro s hs
    have h1' : s ∈ pm0 :=
      (S.sortMatches_perm pm0).subset ((greedyAccept_sublist _ [] []).subset hs)
    exact ⟨(S.sortMatches_perm pm1).symm.subset (hsub s h1'), List.not_mem_nil _, List.not_mem_nil _⟩
  · exact (greedyAccept_nodup_query _ [] []).2
  · exact (greedyAccept_nodup_candidate _ [] []).2

/-! ## Returned results and the examples -/

/-- The `NULL` result is returned for the empty candidate list and for no other. -/
theorem dot_null_iff (S : StdSort) (query : Spectrum) (cands : List Spectrum) (tol : ℚ)
    (allow_shift : Bool) : dot S query cands tol allow_shift = some none ↔ cands = [] := by
  constructor
  · intro h
    obtain ⟨hA, _, _⟩ := dotLoop_spec S query tol allow_shift cands 0 none none h
    cases cands with
    | nil => rfl
    | cons c rest =>
      obtain ⟨_, _, m, hm, _⟩ := hA 0 c (by simp)
      cases hm
  · rintro rfl
    rfl

/-- For a non-empty candidate list in which no candidate without peaks meets
a query with a peak, `dot` returns a match. -/
theorem dot_returns_match (S : StdSort) (query : Spectrum) (cands : List Spectrum) (tol : ℚ)
    (allow_shift : Bool) (hne : cands ≠ []) (hok : NoEmptyCandidate query cands) :
    ∃ m, dot S query cands tol allow_shift = some (some m) := by
  obtain ⟨r, hr⟩ := (dot_returns_iff S query cands tol allow_shift).mpr hok
  cases r with
  | none => exact absurd ((dot_null_iff S query cands tol allow_shift).mp hr) hne
  | some m => exact ⟨m, hr⟩

/-- The evaluation of the example with shifting. -/
theorem dot_example_shift :
    dot insertionStdSort exampleQuery [exampleCandidate] (1 / 10) true =
      some (some ⟨0, 9, [(0, 1)]⟩) := by
  decide!

/-- The evaluation of the example without shifting. -/
theorem dot_example_noshift :
    dot insertionStdSort exampleQuery [exampleCandidate] (1 / 10) false =
      some (some ⟨0, 12, [(0, 0), (1, 1)]⟩) := by
  decide!

/-! ## The charges of the working peak list -/

/-- The shifted copies of a candidate peak are built from its shift charges. -/
theorem shiftedPeaksOf_eq_flatMap (candidate : Spectrum) (mass_dif : ℚ) (peak_index : ℕ) :
    shiftedPeaksOf candidate mass_dif peak_index =
      (shiftCharges candidate peak_index).flatMap fun charge =>
        if candidate.getPeakMass peak_index - mass_dif / (charge : ℚ) > 0 then
          [Peak.mk (candidate.getPeakMass peak_index - mass_dif / (charge : ℚ))
            (candidate.getPeakIntensity peak_index) charge peak_index]
        else [] :=
  rfl

/-- Every charge `mass_dif` is divided by is at least 1. -/
theorem one_le_of_mem_shiftCharges {candidate : Spectrum} {peak_index charge : ℕ}
    (h : charge ∈ shiftCharges candidate peak_index) : 1 ≤ charge := by
  unfold shiftCharges at h
  rw [List.mem_range'_1] at h
  exact le_trans (one_le_chargeBounds candidate peak_index) h.1

/-- A peak of the working list is an unshifted copy, or the shift branch was
taken and it is a shifted copy of some candidate peak. -/
theorem candidatePeaks_cases {S : StdSort} {query candidate : Spectrum} {tol : ℚ}
    {allow_shift : Bool} {p : Peak} (hp : p ∈ candidatePeaks S query candidate tol allow_shift) :
    p ∈ unshiftedPeaks candidate ∨
      (allow_shift = true ∧ massDif query candidate > tol ∧
        ∃ i, i < candidate.getNumPeaks ∧ p ∈ shiftedPeaksOf candidate (massDif query candidate) i) := by
  unfold candidatePeaks at hp
  split at hp
  · rename_i hs
    have hp' := (S.sortPeaks_perm _).subset hp
    rcases List.mem_append.mp hp' with h | h
    · exact Or.inl h
    · obtain ⟨i, hi, hpi⟩ := List.mem_flatMap.mp h
      exact Or.inr ⟨hs.1, hs.2, i, List.mem_range.mp hi, hpi⟩
  · exact Or.inl hp

/-- A peak of the working list has charge 0 exactly when it is an unshifted
copy. -/
theorem candidatePeaks_charge_zero_iff {S : StdSort} {query candidate : Spectrum} {tol : ℚ}
    {allow_shift : Bool} {p : Peak} (hp : p ∈ candidatePeaks S query candidate tol allow_shift) :
    p.charge = 0 ↔ p ∈ unshiftedPeaks candidate := by
  constructor
  · intro h0
    rcases candidatePeaks_cases hp with h | ⟨_, _, i, _, hpi⟩
    · exact h
    · obtain ⟨_, _, hlo, _⟩ := mem_shiftedPeaksOf hpi
      have := one_le_chargeBounds candidate i
      omega
  · intro h
    exact (mem_unshiftedPeaks h).2.1

/-! ## The acceptance rule, entry by entry -/

/-- The acceptance rule depends on the used indices only as sets. -/
theorem greedyAccept_congr :
    ∀ (ms : List PeakMatch) (u u' v v' : List ℕ), (∀ x, x ∈ u ↔ x ∈ u') → (∀ x, x ∈ v ↔ x ∈ v') →
      greedyAccept ms u v = greedyAccept ms u' v' := by
  intro ms
  induction ms with
  | nil => intro _ _ _ _ _ _; rfl
  | cons e rest ih =>
    intro u u' v v' hu hv
    rw [greedyAccept, greedyAccept]
    by_cases hb : e.2.1 ∈ u ∨ e.2.2 ∈ v
    · have hb' : e.2.1 ∈ u' ∨ e.2.2 ∈ v' := hb.imp (hu _).mp (hv _).mp
      rw [if_pos hb, if_pos hb']
      exact ih u u' v v' hu hv
    · have hb' : ¬ (e.2.1 ∈ u' ∨ e.2.2 ∈ v') := fun h => hb (h.imp (hu _).mpr (hv _).mpr)
      rw [if_neg hb, if_neg hb']
      congr 1
      apply ih
      · intro x; simp only [List.mem_cons, hu x]
      · intro x; simp only [List.mem_cons, hv x]

/-- The walk worded over the accepted entries is the walk over the used
indices. -/
theorem greedyWalk_eq :
    ∀ (ms accepted : List PeakMatch),
      greedyWalk ms accepted =
        accepted ++ greedyAccept ms (accepted.map fun a => a.2.1) (accepted.map fun a => a.2.2) := by
  intro ms
  induction ms with
  | nil => intro accepted; simp [greedyWalk, greedyAccept]
  | cons e rest ih =>
    intro accepted
    rw [greedyWalk, greedyAccept]
    by_cases hfree : (∀ a ∈ accepted, a.2.1 ≠ e.2.1) ∧ (∀ a ∈ accepted, a.2.2 ≠ e.2.2)
    · have hnb : ¬ (e.2.1 ∈ accepted.map (fun a => a.2.1) ∨ e.2.2 ∈ accepted.map fun a => a.2.2) := by
        rintro (h | h)
        · obtain ⟨a, ha, hae⟩ := List.mem_map.mp h
          exact hfree.1 a ha hae
        · obtain ⟨a, ha, hae⟩ := List.mem_map.mp h
          exact hfree.2 a ha hae
      rw [if_pos hfree, if_neg hnb, ih, List.append_assoc, List.singleton_append]
      congr 2
      apply greedyAccept_congr
      · intro x; simp [or_comm]
      · intro x; simp [or_comm]
    · have hb : e.2.1 ∈ accepted.map (fun a => a.2.1) ∨ e.2.2 ∈ accepted.map fun a => a.2.2 := by
        by_contra hcon
        apply hfree
        constructor
        · intro a ha hae
          exact hcon (Or.inl (List.mem_map.mpr ⟨a, ha, hae⟩))
        · intro a ha hae
          exact hcon (Or.inr (List.mem_map.mpr ⟨a, ha, hae⟩))
      rw [if_neg hfree, if_pos hb, ih]

/-- The greedy assignment is maximal: every entry of the list has its query
index or its candidate index among the used or the accepted ones. -/
theorem greedyAccept_maximal :
    ∀ (ms : List PeakMatch) (used_q used_c : List ℕ), ∀ e ∈ ms,
      (e.2.1 ∈ used_q ∨ e.2.1 ∈ (greedyAccept ms used_q used_c).map fun a => a.2.1) ∨
        (e.2.2 ∈ used_c ∨ e.2.2 ∈ (greedyAccept ms used_q used_c).map fun a => a.2.2) := by
  intro ms
  induction ms with
  | nil => intro _ _ e he; simp at he
  | cons e0 rest ih =>
    intro used_q used_c e he
    rw [greedyAccept]
    by_cases hb : e0.2.1 ∈ used_q ∨ e0.2.2 ∈ used_c
    · rw [if_pos hb]
      rcases List.mem_cons.mp he with rfl | hm
      · exact hb.imp Or.inl Or.inl
      · exact ih used_q used_c e hm
    · rw [if_neg hb]
      rcases List.mem_cons.mp he with rfl | hm
      · left; right; simp
      · rcases ih (e0.2.1 :: used_q) (e0.2.2 :: used_c) e hm with (h | h) | (h | h)
        · rcases List.mem_cons.mp h with h1 | h1
          · left; right; rw [h1]; simp
          · exact Or.inl (Or.inl h1)
        · left; right; exact List.mem_map.mpr (by
            obtain ⟨a, ha, hae⟩ := List.mem_map.mp h
            exact ⟨a, List.mem_cons_of_mem _ ha, hae⟩)
        · rcases List.mem_cons.mp h with h1 | h1
          · right; right; rw [h1]; simp
          · exact Or.inr (Or.inl h1)
        · right; right; exact List.mem_map.mpr (by
            obtain ⟨a, ha, hae⟩ := List.mem_map.mp h
            exact ⟨a, List.mem_cons_of_mem _ ha, hae⟩)

/-! ## One candidate, one dominant entry -/

/-- With one candidate, `dot` returns the evaluation of that candidate. -/
theorem dot_singleton (S : StdSort) (query candidate : Spectrum) (tol : ℚ) (allow_shift : Bool) :
    dot S query [candidate] tol allow_shift =
      (scoreCandidate S query candidate 0 tol allow_shift).map some := by
  unfold dot
  rw [dotLoop]
  cases scoreCandidate S query candidate 0 tol allow_shift with
  | none => rfl
  | some t => rfl

/-- A sorted list starts with its entry of strictly largest weight. -/
theorem sorted_head_of_strict_max {L : List PeakMatch} {e : PeakMatch}
    (hs : List.Pairwise (fun a b : PeakMatch => ¬ b.1 > a.1) L) (he : e ∈ L)
    (hmax : ∀ e' ∈ L, e' ≠ e → e'.1 < e.1) : ∃ L', L = e :: L' := by
  cases L with
  | nil => simp at he
  | cons h L' =>
    by_cases hh : h = e
    · exact ⟨L', by rw [hh]⟩
    · exfalso
      rw [List.pairwise_cons] at hs
      rcases List.mem_cons.mp he with h1 | h1
      · exact hh h1.symm
      · exact hs.1 e h1 (hmax h (List.mem_cons_self _ _) hh)

/-- Entries that all have a used index are all refused. -/
theorem greedyAccept_all_blocked :
    ∀ (L : List PeakMatch) (used_q used_c : List ℕ),
      (∀ e ∈ L, e.2.1 ∈ used_q ∨ e.2.2 ∈ used_c) → greedyAccept L used_q used_c = [] := by
  intro L
  induction L with
  | nil => intro _ _ _; rfl
  | cons e rest ih =>
    intro used_q used_c h
    rw [greedyAccept, if_pos (h e (List.mem_cons_self _ _))]
    exact ih used_q used_c fun e' he' => h e' (List.mem_cons_of_mem _ he')

/-- The entry of strictly largest weight is accepted first. -/
theorem greedyAccept_head_of_strict_max {L : List PeakMatch} {e : PeakMatch}
    (hs : List.Pairwise (fun a b : PeakMatch => ¬ b.1 > a.1) L) (he : e ∈ L)
    (hmax : ∀ e' ∈ L, e' ≠ e → e'.1 < e.1) :
    ∃ L', L = e :: L' ∧ greedyAccept L [] [] = e :: greedyAccept L' [e.2.1] [e.2.2] := by
  obtain ⟨L', rfl⟩ := sorted_head_of_strict_max hs he hmax
  exact ⟨L', rfl, by rw [greedyAccept, if_neg (by simp)]⟩

/-- When the entry of strictly largest weight shares an index with every other
entry, it is the only accepted entry. -/
theorem greedyAccept_of_dominant {L : List PeakMatch} {e : PeakMatch}
    (hs : List.Pairwise (fun a b : PeakMatch => ¬ b.1 > a.1) L) (he : e ∈ L)
    (hmax : ∀ e' ∈ L, e' ≠ e → e'.1 < e.1)
    (hshare : ∀ e' ∈ L, e'.2.1 = e.2.1 ∨ e'.2.2 = e.2.2) :
    greedyAccept L [] [] = [e] := by
  obtain ⟨L', rfl, hg⟩ := greedyAccept_head_of_strict_max hs he hmax
  rw [hg, greedyAccept_all_blocked]
  intro e' he'
  rcases hshare e' (List.mem_cons_of_mem _ he') with h | h
  · exact Or.inl (by rw [h]; exact List.mem_singleton_self _)
  · exact Or.inr (by rw [h]; exact List.mem_singleton_self _)

/-- The evaluation of a candidate whose match list has a dominant entry that
shares an index with every other entry, for every `std::sort`. -/
theorem scoreCandidate_of_dominant {S : StdSort} {query candidate : Spectrum} {i : ℕ} {tol : ℚ}
    {allow_shift : Bool} {pm : List PeakMatch} {e : PeakMatch}
    (hpm : matchPeaks (candidatePeaks S query candidate tol allow_shift) query tol = some pm)
    (he : e ∈ pm) (hmax : ∀ e' ∈ pm, e' ≠ e → e'.1 < e.1)
    (hshare : ∀ e' ∈ pm, e'.2.1 = e.2.1 ∨ e'.2.2 = e.2.2) :
    scoreCandidate S query candidate i tol allow_shift = some ⟨i, e.1, [(e.2.1, e.2.2)]⟩ := by
  have hperm := S.sortMatches_perm pm
  rw [scoreCandidate_eq hpm,
    greedyAccept_of_dominant (S.sortMatches_ordered pm) (hperm.symm.subset he)
      (fun e' he' => hmax e' (hperm.subset he'))
      (fun e' he' => hshare e' (hperm.subset he'))]
  simp [totalWeight, pairOf]

/-! ## Without shifting, the precursor fields are not read -/

theorem matchLoop_congr_peaks (peaks : List Peak) (q1 q2 : Spectrum) (h : q1.peaks = q2.peaks)
    (tol : ℚ) :
    ∀ (qis : List ℕ) (cursor : ℕ),
      matchLoop peaks q1 tol qis cursor = matchLoop peaks q2 tol qis cursor := by
  have hm : ∀ i, q1.getPeakMass i = q2.getPeakMass i := by
    intro i; unfold Spectrum.getPeakMass; rw [h]
  have hi : ∀ i, q1.getPeakIntensity i = q2.getPeakIntensity i := by
    intro i; unfold Spectrum.getPeakIntensity; rw [h]
  have hc : ∀ i, q1.getPeakCharge i = q2.getPeakCharge i := by
    intro i; unfold Spectrum.getPeakCharge; rw [h]
  intro qis
  induction qis with
  | nil => intro _; rfl
  | cons i rest ih =>
    intro cursor
    simp only [matchLoop, hm, hi, hc, ih]

theorem unshiftedPeaks_congr_peaks (c1 c2 : Spectrum) (h : c1.peaks = c2.peaks) :
    unshiftedPeaks c1 = unshiftedPeaks c2 := by
  rw [unshiftedPeaks_eq_enum, unshiftedPeaks_eq_enum, h]

/-- Without shifting the evaluation of a candidate reads only the peaks of the
two spectra. -/
theorem scoreCandidate_noshift_congr (S : StdSort) (q1 q2 c1 c2 : Spectrum) (i : ℕ) (tol : ℚ)
    (hq : q1.peaks = q2.peaks) (hc : c1.peaks = c2.peaks) :
    scoreCandidate S q1 c1 i tol false = scoreCandidate S q2 c2 i tol false := by
  unfold scoreCandidate matchPeaks
  rw [candidatePeaks_noshift S q1 c1 tol false (by simp),
    candidatePeaks_noshift S q2 c2 tol false (by simp), unshiftedPeaks_congr_peaks c1 c2 hc,
    matchLoop_congr_peaks _ q1 q2 hq]
  unfold Spectrum.getNumPeaks
  rw [hq, hc]

/-! ## Every entry of a match list is justified -/

/-- Every entry of the match list of a candidate pairs a query peak with a
candidate peak it matches, directly or after a shift. -/
theorem matchPeaks_justified {S : StdSort} {query candidate : Spectrum} {tol : ℚ}
    {allow_shift : Bool} {pm : List PeakMatch}
    (hpm : matchPeaks (candidatePeaks S query candidate tol allow_shift) query tol = some pm) :
    ∀ e ∈ pm, PairJustified query candidate tol allow_shift e.2.1 e.2.2 := by
  intro e he
  obtain ⟨i, _, p, hp, hm, hc, rfl⟩ := mem_matchLoop hpm e he
  simp only [entryOf]
  rcases candidatePeaks_cases hp with hu | ⟨hs, hmd, j, _, hpj⟩
  · left
    rw [← (mem_unshiftedPeaks hu).2.2.1]
    exact hm
  · right
    obtain ⟨hidx, _, hlo, hhi, hmass, hpos⟩ := mem_shiftedPeaksOf hpj
    have h1 : 1 ≤ p.charge := le_trans (one_le_chargeBounds candidate j) hlo
    have hmass' : candidate.getPeakMass j -
        (query.precursorMz - candidate.precursorMz) * (candidate.precursorCharge : ℚ) /
          (p.charge : ℚ) = p.mass := hmass.symm
    refine ⟨hs, hmd, p.charge, h1, ?_, ?_, ?_, ?_⟩
    · rw [hidx]
      unfold chargeBounds at hlo hhi
      by_cases hk : candidate.getPeakCharge j > 0
      · rw [if_pos hk] at hlo hhi
        left
        exact ⟨hk, by simp only at hlo hhi; omega⟩
      · rw [if_neg hk] at hlo hhi
        right
        exact ⟨by omega, hhi⟩
    · rw [hidx, hmass']; exact hpos
    · rw [hidx, hmass']; exact hm
    · rcases (canMatch_iff _ _).mp hc with h | ⟨_, _, h⟩ | h
      · omega
      · exact Or.inr h
      · exact Or.inl h

/-! ## Scenario B: one candidate peak of known charge 1 -/

/-- When the shift branch is taken the working list is ordered by mass. -/
theorem candidatePeaks_sorted_of_shift (S : StdSort) (query candidate : Spectrum) (tol : ℚ)
    (allow_shift : Bool) (hs : allow_shift = true ∧ massDif query candidate > tol) :
    List.Pairwise (fun a b : Peak => a.mass ≤ b.mass)
      (candidatePeaks S query candidate tol allow_shift) := by
  unfold candidatePeaks
  rw [if_pos hs]
  exact List.Pairwise.imp (fun hab => not_lt.mp hab) (S.sortPeaks_ordered _)

/-- The working list of scenario B holds the unshifted peak and the peak
shifted by the mass difference 16. -/
theorem candidatePeaks_scenario_B (S : StdSort) (query : Spectrum) (mz x intensity : ℚ)
    (hmd : massDif query (scenarioBCandidate mz x intensity) = 16) (hx : 16 < x) :
    List.Perm (candidatePeaks S query (scenarioBCandidate mz x intensity) (1 / 10) true)
      [⟨x, intensity, 0, 0⟩, ⟨x - 16, intensity, 1, 0⟩] := by
  unfold candidatePeaks
  rw [if_pos ⟨rfl, by rw [hmd]; norm_num⟩, hmd]
  refine (S.sortPeaks_perm _).trans ?_
  have h1 : unshiftedPeaks (scenarioBCandidate mz x intensity) = [⟨x, intensity, 0, 0⟩] := rfl
  have h2 : (List.range (scenarioBCandidate mz x intensity).getNumPeaks).flatMap
      (shiftedPeaksOf (scenarioBCandidate mz x intensity) 16) = [⟨x - 16, intensity, 1, 0⟩] := by
    have hpos : x - 16 / ((1 : ℕ) : ℚ) > 0 := by
      rw [Nat.cast_one, div_one]; linarith
    have hr : List.range (scenarioBCandidate mz x intensity).getNumPeaks = [0] := rfl
    have hc : shiftCharges (scenarioBCandidate mz x intensity) 0 = [1] := rfl
    rw [hr, List.flatMap_cons, List.flatMap_nil, List.append_nil, shiftedPeaksOf_eq_flatMap, hc,
      List.flatMap_cons, List.flatMap_nil, List.append_nil]
    have hm : (scenarioBCandidate mz x intensity).getPeakMass 0 = x := rfl
    have hi : (scenarioBCandidate mz x intensity).getPeakIntensity 0 = intensity := rfl
    rw [hm, hi, if_pos hpos, Nat.cast_one, div_one]
  rw [h1, h2]
  rfl

/-! ## The order of equal weights -/

/-- Two orderings of a match list that are both non-increasing in weight are
the same list when no two entries have the same weight. -/
theorem sorted_perm_eq_of_distinct_weights {l₁ l₂ : List PeakMatch} (hp : List.Perm l₁ l₂)
    (h₁ : List.Pairwise (fun a b : PeakMatch => ¬ b.1 > a.1) l₁)
    (h₂ : List.Pairwise (fun a b : PeakMatch => ¬ b.1 > a.1) l₂)
    (hd : (l₁.map fun e => e.1).Nodup) : l₁ = l₂ := by
  have hd₂ : (l₂.map fun e => e.1).Nodup := (hp.map _).nodup_iff.mp hd
  have strict : ∀ l : List PeakMatch, List.Pairwise (fun a b : PeakMatch => ¬ b.1 > a.1) l →
      (l.map fun e => e.1).Nodup → List.Pairwise (fun a b : PeakMatch => a.1 > b.1) l := by
    intro l hs hn
    have hne : List.Pairwise (fun a b : PeakMatch => a.1 ≠ b.1) l := List.pairwise_map.mp hn
    exact (hs.and hne).imp fun hab => lt_of_le_of_ne (not_lt.mp hab.1) (Ne.symm hab.2)
  haveI : IsAntisymm PeakMatch (fun a b : PeakMatch => a.1 > b.1) :=
    ⟨fun a b hab hba => absurd hab (not_lt.mpr (le_of_lt hba))⟩
  exact List.eq_of_perm_of_sorted hp (strict l₁ h₁ hd) (strict l₂ h₂ hd₂)

/-- The windows of a query peak over two orderings of the working list are
orderings of one another. -/
theorem windowOf_perm {P₁ P₂ : List Peak} (h : List.Perm P₁ P₂) (query : Spectrum) (tol : ℚ)
    (i : ℕ) : List.Perm (windowOf P₁ query tol i) (windowOf P₂ query tol i) := by
  unfold windowOf
  exact ((h.filter _).filter _).map _

/-- The working lists two sorts build are orderings of one another. -/
theorem candidatePeaks_perm (S₁ S₂ : StdSort) (query candidate : Spectrum) (tol : ℚ)
    (allow_shift : Bool) :
    List.Perm (candidatePeaks S₁ query candidate tol allow_shift)
      (candidatePeaks S₂ query candidate tol allow_shift) := by
  unfold candidatePeaks
  split
  · exact (S₁.sortPeaks_perm _).trans (S₂.sortPeaks_perm _).symm
  · exact List.Perm.refl _

/-- Two match lists that are orderings of one another, with no two entries of
the same weight, give the same evaluation of a candidate, whatever the sorts. -/
theorem scoreCandidate_eq_of_perm {S₁ S₂ : StdSort} {query candidate : Spectrum} {i : ℕ} {tol : ℚ}
    {allow_shift : Bool} {pm₁ pm₂ : List PeakMatch}
    (h₁ : matchPeaks (candidatePeaks S₁ query candidate tol allow_shift) query tol = some pm₁)
    (h₂ : matchPeaks (candidatePeaks S₂ query candidate tol allow_shift) query tol = some pm₂)
    (hp : List.Perm pm₁ pm₂) (hd : (pm₁.map fun e => e.1).Nodup) :
    scoreCandidate S₁ query candidate i tol allow_shift =
      scoreCandidate S₂ query candidate i tol allow_shift := by
  have hL : S₁.sortMatches pm₁ = S₂.sortMatches pm₂ :=
    sorted_perm_eq_of_distinct_weights
      (((S₁.sortMatches_perm pm₁).trans hp).trans (S₂.sortMatches_perm pm₂).symm)
      (S₁.sortMatches_ordered pm₁) (S₂.sortMatches_ordered pm₂)
      (((S₁.sortMatches_perm pm₁).map _).nodup_iff.mpr hd)
  rw [scoreCandidate_eq h₁, scoreCandidate_eq h₂, hL]

/-- The evaluation of a candidate does not depend on the sort when the query is
sorted and no two entries of the match list have the same weight. -/
theorem scoreCandidate_sort_independent (S₁ S₂ : StdSort) (query candidate : Spectrum) (i : ℕ)
    (tol : ℚ) (allow_shift : Bool) (hq : query.MassSorted)
    (hlen : (candidatePeaks S₁ query candidate tol allow_shift).length < 2 ^ 32)
    (hd : ∀ pm, matchPeaks (candidatePeaks S₁ query candidate tol allow_shift) query tol = some pm →
      (pm.map fun e => e.1).Nodup) :
    scoreCandidate S₁ query candidate i tol allow_shift =
      scoreCandidate S₂ query candidate i tol allow_shift := by
  have hperm := candidatePeaks_perm S₁ S₂ query candidate tol allow_shift
  have same : candidatePeaks S₁ query candidate tol allow_shift =
      candidatePeaks S₂ query candidate tol allow_shift →
      scoreCandidate S₁ query candidate i tol allow_shift =
        scoreCandidate S₂ query candidate i tol allow_shift := by
    intro heq
    cases hpm : matchPeaks (candidatePeaks S₁ query candidate tol allow_shift) query tol with
    | none =>
      have hpm₂ := hpm
      rw [heq] at hpm₂
      simp [scoreCandidate, hpm, hpm₂]
    | some pm =>
      have hpm₂ := hpm
      rw [heq] at hpm₂
      exact scoreCandidate_eq_of_perm hpm hpm₂ (List.Perm.refl _) (hd pm hpm)
  by_cases hs : allow_shift = true ∧ massDif query candidate > tol
  · by_cases hne : candidatePeaks S₁ query candidate tol allow_shift = []
    · apply same
      rw [hne] at hperm ⊢
      exact (List.nil_perm.mp hperm).symm
    · have hpos₁ : 0 < (candidatePeaks S₁ query candidate tol allow_shift).length :=
        List.length_pos.mpr hne
      have hex₁ := matchLoop_exact _ query tol
        (candidatePeaks_sorted_of_shift S₁ query candidate tol allow_shift hs) hlen _ 0
        (range_sorted_of_massSorted query hq) hpos₁
        (fun j p hj => absurd hj (Nat.not_lt_zero j))
      have hex₂ := matchLoop_exact _ query tol
        (candidatePeaks_sorted_of_shift S₂ query candidate tol allow_shift hs)
        (by rw [← hperm.length_eq]; exact hlen) _ 0
        (range_sorted_of_massSorted query hq) (by rw [← hperm.length_eq]; exact hpos₁)
        (fun j p hj => absurd hj (Nat.not_lt_zero j))
      exact scoreCandidate_eq_of_perm hex₁ hex₂
        (List.Perm.flatMap_left _ fun i _ => windowOf_perm hperm query tol i) (hd _ hex₁)
  · apply same
    rw [candidatePeaks_noshift S₁ query candidate tol allow_shift hs,
      candidatePeaks_noshift S₂ query candidate tol allow_shift hs]

/-- The candidate loop gives the same outcome for two sorts (and two settings)
under which every candidate is evaluated alike. -/
theorem dotLoop_congr (S₁ S₂ : StdSort) (query : Spectrum) (tol : ℚ) (s₁ s₂ : Bool) :
    ∀ (cands : List Spectrum) (k : ℕ) (best : Option SpectrumSpectrumMatch),
      (∀ c ∈ cands, ∀ i, scoreCandidate S₁ query c i tol s₁ = scoreCandidate S₂ query c i tol s₂) →
      dotLoop S₁ query tol s₁ cands k best = dotLoop S₂ query tol s₂ cands k best := by
  intro cands
  induction cands with
  | nil => intro _ _ _; rfl
  | cons c rest ih =>
    intro k best h
    rw [dotLoop, dotLoop, h c (List.mem_cons_self _ _) k]
    cases scoreCandidate S₂ query c k tol s₂ with
    | none => rfl
    | some t => exact ih _ _ fun c' hc' => h c' (List.mem_cons_of_mem _ hc')

/-! ## The claims -/

/-- C1. Subset-peaks invariant: in a match returned by `dot`, for every query,
candidate list, tolerance and value of `allow_shift`, no query peak index
occurs in two entries of `peakMatches` and no candidate peak index (the index
of the originating peak, shared by a shifted copy and the unshifted one) occurs
in two entries.  By `dot_returns_iff` a non-empty candidate list gives such a
match unless a candidate without peaks meets a query with a peak. -/
theorem dot_peakMatches_indices_nodup (S : StdSort) (query : Spectrum) (cands : List Spectrum)
    (tol : ℚ) (allow_shift : Bool) (m : SpectrumSpectrumMatch)
    (h : dot S query cands tol allow_shift = some (some m)) :
    (m.peakMatches.map Prod.fst).Nodup ∧ (m.peakMatches.map Prod.snd).Nodup := by
  obtain ⟨i, c, _, hsc⟩ := dot_some_scored h
  obtain ⟨pm, _, _, _, hpairs⟩ := scoreCandidate_fields hsc
  rw [hpairs, List.map_map, List.map_map]
  exact ⟨(greedyAccept_nodup_query _ [] []).2, (greedyAccept_nodup_candidate _ [] []).2⟩

/-- Witness of C1 on the example with shifting. -/
theorem dot_peakMatches_indices_nodup_witness :
    dot insertionStdSort exampleQuery [exampleCandidate] (1 / 10) true =
        some (some ⟨0, 9, [(0, 1)]⟩) ∧
      (([(0, 1)] : List (ℕ × ℕ)).map Prod.fst).Nodup ∧
      (([(0, 1)] : List (ℕ × ℕ)).map Prod.snd).Nodup :=
  ⟨dot_example_shift,
    dot_peakMatches_indices_nodup insertionStdSort exampleQuery [exampleCandidate] (1 / 10) true
      ⟨0, 9, [(0, 1)]⟩ dot_example_shift⟩

/-- C2, counterexample. Shift monotonicity fails: for the sorted query
`exampleQuery`, the single sorted candidate `exampleCandidate` (all intensities
positive) and the tolerance 1/10, the score with `allow_shift = true` is 9 and
the score with `allow_shift = false` is 12.  The shifted copy of candidate peak
1 gives the entry of weight `3 * 3 = 9` for query peak 0, which the greedy walk
takes first; it uses up query peak 0 and candidate peak 1, the two indices of
the unshifted pairs of weight 6 each. -/
theorem dot_shift_not_monotone :
    exampleQuery.MassSorted ∧ exampleCandidate.MassSorted ∧
      (∀ p ∈ exampleQuery.peaks, 0 ≤ p.intensity) ∧
      (∀ p ∈ exampleCandidate.peaks, 0 ≤ p.intensity) ∧ (0 : ℚ) ≤ 1 / 10 ∧
      dot insertionStdSort exampleQuery [exampleCandidate] (1 / 10) true =
        some (some ⟨0, 9, [(0, 1)]⟩) ∧
      dot insertionStdSort exampleQuery [exampleCandidate] (1 / 10) false =
        some (some ⟨0, 12, [(0, 0), (1, 1)]⟩) ∧
      ¬ ((9 : ℚ) ≥ 12) :=
  ⟨by unfold Spectrum.MassSorted; decide!, by unfold Spectrum.MassSorted; decide!, by decide!,
    by decide!, by norm_num, dot_example_shift, dot_example_noshift, by norm_num⟩

/-- C2, amended. For a query with peaks sorted ascending by mass, candidates and
a query with non-negative intensities, and working lists an `unsigned int`
cursor can index, for every tolerance: the score of the match returned with
`allow_shift = true` is at least half the score of the match returned with
`allow_shift = false`, and for every candidate each entry of the match list
built without shifting is an entry of the match list built with shifting
(shifting only adds matching opportunities). -/
theorem dot_shift_score_ge_half (S : StdSort) (query : Spectrum) (cands : List Spectrum)
    (tol : ℚ) (m1 m0 : SpectrumSpectrumMatch) (hq : query.MassSorted)
    (hqi : ∀ p ∈ query.peaks, 0 ≤ p.intensity)
    (hci : ∀ c ∈ cands, ∀ p ∈ c.peaks, 0 ≤ p.intensity)
    (hlen : ∀ c ∈ cands, (candidatePeaks S query c tol true).length < 2 ^ 32)
    (h1 : dot S query cands tol true = some (some m1))
    (h0 : dot S query cands tol false = some (some m0)) :
    m0.score ≤ 2 * m1.score ∧
      ∀ c ∈ cands, ∀ pm0 pm1,
        matchPeaks (candidatePeaks S query c tol false) query tol = some pm0 →
        matchPeaks (candidatePeaks S query c tol true) query tol = some pm1 →
        ∀ e ∈ pm0, e ∈ pm1 := by
  constructor
  · obtain ⟨i, c, hi, hsc0, _, _⟩ := dot_some_selected h0
    obtain ⟨_, _, _, _, _, hall⟩ := dot_some_selected h1
    obtain ⟨mj, hmj, hle, _⟩ := hall i c hi
    have hc : c ∈ cands := List.getElem?_mem hi
    have := scoreCandidate_shift_half S query c i i tol m0 mj hq hqi (hci c hc) (hlen c hc) hsc0 hmj
    linarith
  · intro c hc pm0 pm1 h0' h1'
    exact matchPeaks_noshift_subset S query c tol pm0 pm1 hq (hlen c hc) h0' h1'

/-- Witness of the amended C2 on the example: `12 ≤ 2 * 9`. -/
theorem dot_shift_score_ge_half_witness :
    dot insertionStdSort exampleQuery [exampleCandidate] (1 / 10) true =
        some (some ⟨0, 9, [(0, 1)]⟩) ∧
      dot insertionStdSort exampleQuery [exampleCandidate] (1 / 10) false =
        some (some ⟨0, 12, [(0, 0), (1, 1)]⟩) ∧
      (12 : ℚ) ≤ 2 * 9 :=
  ⟨dot_example_shift, dot_example_noshift,
    (dot_shift_score_ge_half insertionStdSort exampleQuery [exampleCandidate] (1 / 10)
      ⟨0, 9, [(0, 1)]⟩ ⟨0, 12, [(0, 0), (1, 1)]⟩ (by unfold Spectrum.MassSorted; decide!)
      (by decide!) (by decide!) (by decide!) dot_example_shift dot_example_noshift).1⟩

/-- C3. No-shift-needed idempotence: when for every candidate
`(query.precursorMz - candidate.precursorMz) * candidate.precursorCharge` is
at most the tolerance, the working peak list with `allow_shift = true` is the
list of unshifted copies, not re-sorted, and `dot` gives the same outcome
(same absence or presence, same match) as with `allow_shift = false`. -/
theorem dot_shift_eq_of_massDif_le (S : StdSort) (query : Spectrum) (cands : List Spectrum)
    (tol : ℚ)
    (h : ∀ c ∈ cands, (query.precursorMz - c.precursorMz) * (c.precursorCharge : ℚ) ≤ tol) :
    (∀ c ∈ cands, candidatePeaks S query c tol true = unshiftedPeaks c) ∧
      dot S query cands tol true = dot S query cands tol false := by
  have hpeaks : ∀ c ∈ cands, candidatePeaks S query c tol true = unshiftedPeaks c := by
    intro c hc
    have hle := h c hc
    unfold candidatePeaks
    rw [if_neg]
    rintro ⟨_, hgt⟩
    exact absurd hgt (not_lt.mpr hle)
  refine ⟨hpeaks, ?_⟩
  have hsc : ∀ c ∈ cands, ∀ i, scoreCandidate S query c i tol true =
      scoreCandidate S query c i tol false := by
    intro c hc i
    unfold scoreCandidate
    rw [hpeaks c hc]
    simp [candidatePeaks]
  unfold dot
  generalize (0 : ℕ) = k
  generalize (none : Option SpectrumSpectrumMatch) = best
  induction cands generalizing k best with
  | nil => rfl
  | cons c rest ih =>
    rw [dotLoop, dotLoop, hsc c (List.mem_cons_self _ _) k]
    cases scoreCandidate S query c k tol false with
    | none => rfl
    | some t =>
      exact ih (fun c' hc' => h c' (List.mem_cons_of_mem _ hc'))
        (fun c' hc' => hpeaks c' (List.mem_cons_of_mem _ hc'))
        (fun c' hc' => hsc c' (List.mem_cons_of_mem _ hc')) _ _

/-- Witness of C3: a candidate with the precursor m/z of the query. -/
theorem dot_shift_eq_of_massDif_le_witness :
    (∀ c ∈ [sameMzCandidate],
        (exampleQuery.precursorMz - c.precursorMz) * (c.precursorCharge : ℚ) ≤ 1 / 10) ∧
      dot insertionStdSort exampleQuery [sameMzCandidate] (1 / 10) true =
        dot insertionStdSort exampleQuery [sameMzCandidate] (1 / 10) false :=
  ⟨by decide!,
    (dot_shift_eq_of_massDif_le insertionStdSort exampleQuery [sameMzCandidate] (1 / 10)
      (by decide!)).2⟩

/-- C4. Best-candidate selection with first-seen tie-break: a match returned by
`dot` is the evaluation (expander, matcher, assigner) of the candidate at some
position `i`, its `candidateIndex` is `i`, every candidate is evaluated and has
a score that is at most the returned one, and strictly smaller when the
candidate comes before `i`; with exactly one candidate the returned match is
the evaluation of that candidate and its `candidateIndex` is 0. -/
theorem dot_selects_first_best (S : StdSort) (query : Spectrum) (cands : List Spectrum)
    (tol : ℚ) (allow_shift : Bool) (m : SpectrumSpectrumMatch)
    (h : dot S query cands tol allow_shift = some (some m)) :
    (∃ i c, cands[i]? = some c ∧ scoreCandidate S query c i tol allow_shift = some m ∧
      m.candidateIndex = i ∧
      ∀ j cj, cands[j]? = some cj →
        ∃ mj, scoreCandidate S query cj j tol allow_shift = some mj ∧ mj.score ≤ m.score ∧
          (j < i → mj.score < m.score)) ∧
    (∀ c, cands = [c] →
      scoreCandidate S query c 0 tol allow_shift = some m ∧ m.candidateIndex = 0) := by
  have main := dot_some_selected h
  refine ⟨main, ?_⟩
  rintro c rfl
  obtain ⟨i, c', hi, hsc, hidx, _⟩ := main
  cases i with
  | zero =>
    simp only [List.getElem?_cons_zero, Option.some.injEq] at hi
    subst hi
    exact ⟨hsc, hidx⟩
  | succ i => simp at hi

/-- Witness of C4 on the example without shifting. -/
theorem dot_selects_first_best_witness :
    dot insertionStdSort exampleQuery [exampleCandidate] (1 / 10) false =
        some (some ⟨0, 12, [(0, 0), (1, 1)]⟩) ∧
      scoreCandidate insertionStdSort exampleQuery exampleCandidate 0 (1 / 10) false =
        some ⟨0, 12, [(0, 0), (1, 1)]⟩ :=
  ⟨dot_example_noshift,
    ((dot_selects_first_best insertionStdSort exampleQuery [exampleCandidate] (1 / 10) false
      ⟨0, 12, [(0, 0), (1, 1)]⟩ dot_example_noshift).2 exampleCandidate rfl).1⟩

/-- C5. `dot` returns `NULL` if and only if the candidate list is empty, but
it does not return a match for every non-empty candidate list: for the query
`exampleQuery` (two peaks) and the single candidate `peaklessCandidate` the
cursor advance reads `candidate_peaks[0]` of an empty working list, and the
call faults instead of returning a match of score 0. -/
theorem dot_faults_on_peakless_candidate :
    (∀ (S : StdSort) (query : Spectrum) (cands : List Spectrum) (tol : ℚ) (allow_shift : Bool),
      dot S query cands tol allow_shift = some none ↔ cands = []) ∧
    (∀ (S : StdSort) (tol : ℚ) (allow_shift : Bool),
      dot S exampleQuery [peaklessCandidate] tol allow_shift = none) := by
  refine ⟨dot_null_iff, fun S tol allow_shift => ?_⟩
  apply dotLoop_fault
  intro h
  have := h peaklessCandidate (List.mem_cons_self _ _)
  revert this
  decide

/-- C6. The Peak Matcher is exact under the sortedness precondition: for a
query with peaks sorted ascending by mass and a non-empty working peak list
sorted ascending by mass (of a size an `unsigned int` cursor can index), for
every tolerance, the single-cursor scan does not fault and builds the match
list that has, once each and nothing else, the entry
`(query.intensity[i] * peak[j].intensity, i, peak[j].index)` for every query
index `i` and working-list position `j` with
`|query.mass[i] - peak[j].mass| ≤ tolerance` and compatible charges. -/
theorem matchPeaks_eq_matchSpec (peaks : List Peak) (query : Spectrum) (tol : ℚ)
    (hq : query.MassSorted) (hne : peaks ≠ [])
    (hs : List.Pairwise (fun a b : Peak => a.mass ≤ b.mass) peaks)
    (hlen : peaks.length < 2 ^ 32) :
    matchPeaks peaks query tol = some (matchSpec peaks query tol) := by
  rw [matchSpec_eq]
  exact matchLoop_exact peaks query tol hs hlen _ 0 (range_sorted_of_massSorted query hq)
    (List.length_pos.mpr hne) (fun j p hj => absurd hj (Nat.not_lt_zero j))

/-- Witness of C6 on the working list of the example with shifting. -/
theorem matchPeaks_eq_matchSpec_witness :
    exampleQuery.MassSorted ∧ exampleWorkingList ≠ [] ∧
      List.Pairwise (fun a b : Peak => a.mass ≤ b.mass) exampleWorkingList ∧
      exampleWorkingList.length < 2 ^ 32 ∧
      matchPeaks exampleWorkingList exampleQuery (1 / 10) =
        some (matchSpec exampleWorkingList exampleQuery (1 / 10)) :=
  ⟨by unfold Spectrum.MassSorted; decide!, by decide, by decide!, by decide!,
    matchPeaks_eq_matchSpec exampleWorkingList exampleQuery (1 / 10)
      (by unfold Spectrum.MassSorted; decide!) (by decide) (by decide!) (by decide!)⟩

/-- C7. Candidate Peak Expander content: the working peak list is a
permutation of the unshifted copies `(mass, intensity, 0, i)` of all candidate
peaks together with, only when `allow_shift` holds and the mass difference
exceeds the tolerance, the shifted peaks of positive mass: one peak
`(mass - massDiff / c, intensity, c, i)` for a peak of known charge `c > 0`,
and the peaks `(mass - massDiff / k, intensity, k, i)` for
`1 ≤ k ≤ precursorCharge - 1` for a peak of charge 0. -/
theorem candidatePeaks_perm_expanderSpec (S : StdSort) (query candidate : Spectrum) (tol : ℚ)
    (allow_shift : Bool) :
    List.Perm (candidatePeaks S query candidate tol allow_shift)
      (expanderSpec query candidate tol allow_shift) := by
  unfold candidatePeaks expanderSpec massDif Spectrum.getPrecursorMz Spectrum.getPrecursorCharge
  split
  · refine (S.sortPeaks_perm _).trans ?_
    rw [unshiftedPeaks_eq_enum, shifted_eq_spec]
  · rw [unshiftedPeaks_eq_enum, List.append_nil]

/-- C8. Candidate Peak Expander ordering: for a candidate whose peaks are
sorted ascending by mass, the working peak list is sorted ascending
(non-decreasing) by mass, both when shifted peaks were added and the list was
re-sorted, and when they were not, in which case the list is the unshifted
copies in the candidate's order. -/
theorem candidatePeaks_sorted (S : StdSort) (query candidate : Spectrum) (tol : ℚ)
    (allow_shift : Bool) (h : candidate.MassSorted) :
    List.Pairwise (fun a b : Peak => a.mass ≤ b.mass)
        (candidatePeaks S query candidate tol allow_shift) ∧
      (¬ (allow_shift = true ∧ massDif query candidate > tol) →
        candidatePeaks S query candidate tol allow_shift = unshiftedPeaks candidate ∧
        (candidatePeaks S query candidate tol allow_shift).map Peak.mass =
          candidate.peaks.map SpectrumPeak.mass) := by
  constructor
  · by_cases hs : allow_shift = true ∧ massDif query candidate > tol
    · unfold candidatePeaks
      rw [if_pos hs]
      exact List.Pairwise.imp (fun hab => not_lt.mp hab) (S.sortPeaks_ordered _)
    · rw [candidatePeaks_noshift S query candidate tol allow_shift hs]
      exact unshiftedPeaks_sorted candidate h
  · intro hs
    refine ⟨candidatePeaks_noshift S query candidate tol allow_shift hs, ?_⟩
    rw [candidatePeaks_noshift S query candidate tol allow_shift hs, unshiftedPeaks_eq_enum,
      List.map_map]
    conv_rhs => rw [← List.enum_map_snd candidate.peaks, List.map_map]
    rfl

/-- Witness of C8: the sorted `exampleCandidate`, with shifting. -/
theorem candidatePeaks_sorted_witness :
    exampleCandidate.MassSorted ∧
      List.Pairwise (fun a b : Peak => a.mass ≤ b.mass)
        (candidatePeaks insertionStdSort exampleQuery exampleCandidate (1 / 10) true) :=
  ⟨by unfold Spectrum.MassSorted; decide!,
    (candidatePeaks_sorted insertionStdSort exampleQuery exampleCandidate (1 / 10) true
      (by unfold Spectrum.MassSorted; decide!)).1⟩

/-- C9. The score is the dot product over the reported pairs: the score of a
match returned by `dot` is the sum, over the entries `(q, c)` of its
`peakMatches`, of `query.intensity[q] * candidate.intensity[c]`, for the
candidate at the returned `candidateIndex`. -/
theorem dot_score_eq_sum (S : StdSort) (query : Spectrum) (cands : List Spectrum)
    (tol : ℚ) (allow_shift : Bool) (m : SpectrumSpectrumMatch)
    (h : dot S query cands tol allow_shift = some (some m)) :
    ∃ c, cands[m.candidateIndex]? = some c ∧
      m.score = (m.peakMatches.map fun qc =>
        query.getPeakIntensity qc.1 * c.getPeakIntensity qc.2).sum := by
  obtain ⟨i, c, hi, hsc, hidx, _⟩ := dot_some_selected h
  obtain ⟨pm, hpm, _, hscore, hpairs⟩ := scoreCandidate_fields hsc
  refine ⟨c, by rw [hidx]; exact hi, ?_⟩
  rw [hscore, hpairs, totalWeight, List.map_map]
  congr 1
  apply List.map_congr_left
  intro e he
  have hmem : e ∈ pm :=
    (S.sortMatches_perm pm).subset ((greedyAccept_sublist _ [] []).subset he)
  simpa [pairOf] using (matchPeaks_bounds hpm e hmem).2.2

/-- Witness of C9 on the example without shifting: `12 = 3 * 2 + 2 * 3`. -/
theorem dot_score_eq_sum_witness :
    dot insertionStdSort exampleQuery [exampleCandidate] (1 / 10) false =
        some (some ⟨0, 12, [(0, 0), (1, 1)]⟩) ∧
      ∃ c, [exampleCandidate][0]? = some c ∧
        (12 : ℚ) = (([(0, 0), (1, 1)] : List (ℕ × ℕ)).map fun qc =>
          exampleQuery.getPeakIntensity qc.1 * c.getPeakIntensity qc.2).sum :=
  ⟨dot_example_noshift,
    dot_score_eq_sum insertionStdSort exampleQuery [exampleCandidate] (1 / 10) false
      ⟨0, 12, [(0, 0), (1, 1)]⟩ dot_example_noshift⟩

/-- C10. The cursor advance reads out of bounds for a candidate without peaks
and a query with a peak: the working list of `peaklessCandidate` is empty, the
loop test `candidate_peak_index < candidate_peaks.size() - 1` is
`0 < 2 ^ 64 - 1` in unsigned arithmetic and holds, the index 0 that is read
next is not smaller than the size 0, and the cursor advance for the first peak
of `exampleQuery` faults. -/
theorem cursor_advance_reads_out_of_bounds (S : StdSort) (tol : ℚ) (allow_shift : Bool) :
    candidatePeaks S exampleQuery peaklessCandidate tol allow_shift = [] ∧
      sizeMinusOne ([] : List Peak).length = 2 ^ 64 - 1 ∧
      0 < sizeMinusOne ([] : List Peak).length ∧
      ¬ 0 < ([] : List Peak).length ∧
      advanceCursor [] (exampleQuery.getPeakMass 0) tol 0 = none := by
  refine ⟨candidatePeaks_of_peaks_nil S _ _ tol allow_shift rfl, sizeMinusOne_zero, ?_, by simp,
    advanceCursor_nil _ _⟩
  rw [List.length_nil, sizeMinusOne_zero]
  norm_num

/-- C11. Concrete scenario A: for the query with peaks `(100, 10, 0)` and
`(105, 5, 0)`, one candidate with the single peak `(100, 8, 0)` and the same
precursor m/z (any value, any precursor charges), tolerance 1/2 and
`allow_shift = false`, for every `std::sort`, `dot` returns the match with
`candidateIndex` 0, `peakMatches` exactly `[(0, 0)]` and score 80; query peak 1
is in no pair. -/
theorem dot_scenario_A (S : StdSort) (mz : ℚ) (zq zc : ℕ) :
    dot S (scenarioAQuery mz zq) [scenarioACandidate mz zc] (1 / 2) false =
        some (some ⟨0, 80, [(0, 0)]⟩) ∧
      ∀ x ∈ ([(0, 0)] : List (ℕ × ℕ)), x.1 ≠ 1 := by
  refine ⟨?_, by decide⟩
  rw [dot_singleton, scoreCandidate_noshift_congr S (scenarioAQuery mz zq) (scenarioAQuery 0 0)
    (scenarioACandidate mz zc) (scenarioACandidate 0 0) 0 (1 / 2) rfl rfl]
  have hpm : matchPeaks (candidatePeaks S (scenarioAQuery 0 0) (scenarioACandidate 0 0) (1 / 2) false)
      (scenarioAQuery 0 0) (1 / 2) = some [(80, 0, 0)] := by
    rw [candidatePeaks_noshift S _ _ _ false (by simp)]
    decide!
  rw [scoreCandidate_of_dominant hpm (List.mem_singleton_self _)
    (fun e' he' hne => absurd (List.mem_singleton.mp he') hne)
    (fun e' he' => Or.inl (by rw [List.mem_singleton.mp he']))]
  rfl

/-- C12, counterexample. In scenario B the pair of the query peak at the shifted
mass need not be reported: for `x = 50`, the candidate
`scenarioBCandidate 500 50 8` and the sorted query `scenarioBQuery` (mass
difference 16), query peak 0 has mass 34, within 1/10 of `50 - 16`, and charge
1, yet the returned `peakMatches` is `[(1, 0)]`: query peak 1 matches the
unshifted copy with weight 80, is taken first, and uses up candidate index 0,
which the shifted copy shares. -/
theorem dot_scenario_B_pair_missing :
    massDif scenarioBQuery (scenarioBCandidate 500 50 8) = 16 ∧ (16 : ℚ) < 50 ∧
      scenarioBQuery.MassSorted ∧ scenarioBQuery.peaks[0]? = some ⟨34, 1, 1⟩ ∧
      |(34 : ℚ) - (50 - 16)| ≤ 1 / 10 ∧
      dot insertionStdSort scenarioBQuery [scenarioBCandidate 500 50 8] (1 / 10) true =
        some (some ⟨0, 80, [(1, 0)]⟩) ∧
      ((0, 0) : ℕ × ℕ) ∉ ([(1, 0)] : List (ℕ × ℕ)) :=
  ⟨by decide!, by norm_num, by unfold Spectrum.MassSorted; decide!, by decide!, by norm_num,
    by decide!, by decide⟩

/-- C12, amended. Concrete scenario B: with a mass difference of 16, tolerance
1/10, `allow_shift = true` and one candidate of precursor charge 1 whose only
peak has known charge 1 and mass `x > 16`, the working peak list holds the
unshifted peak `(x, charge 0)` and the shifted peak `(x - 16, charge 1)`, and
for every query with peaks sorted ascending that has a peak `p` at index `i`
within 1/10 of `x - 16` and of charge 0 or 1, the match list of the candidate
has the entry of `p` and candidate peak 0, `dot` returns a match, and its
`peakMatches` is exactly `[(i, 0)]` when that entry weighs strictly more than
every other entry of the match list. -/
theorem dot_scenario_B (S : StdSort) (query : Spectrum) (mz x intensity : ℚ) (i : ℕ)
    (p : SpectrumPeak) (hmd : massDif query (scenarioBCandidate mz x intensity) = 16)
    (hx : 16 < x) (hq : query.MassSorted) (hp : query.peaks[i]? = some p)
    (hm : |p.mass - (x - 16)| ≤ 1 / 10) (hc : p.charge = 0 ∨ p.charge = 1) :
    List.Perm (candidatePeaks S query (scenarioBCandidate mz x intensity) (1 / 10) true)
        [⟨x, intensity, 0, 0⟩, ⟨x - 16, intensity, 1, 0⟩] ∧
      ∃ pm m,
        matchPeaks (candidatePeaks S query (scenarioBCandidate mz x intensity) (1 / 10) true)
          query (1 / 10) = some pm ∧
        (p.intensity * intensity, i, 0) ∈ pm ∧
        dot S query [scenarioBCandidate mz x intensity] (1 / 10) true = some (some m) ∧
        ((∀ e ∈ pm, e ≠ (p.intensity * intensity, i, 0) → e.1 < p.intensity * intensity) →
          m.peakMatches = [(i, 0)]) := by
  have hperm := candidatePeaks_scenario_B S query mz x intensity hmd hx
  refine ⟨hperm, ?_⟩
  have hshift : true = true ∧ massDif query (scenarioBCandidate mz x intensity) > 1 / 10 :=
    ⟨rfl, by rw [hmd]; norm_num⟩
  have hsorted := candidatePeaks_sorted_of_shift S query (scenarioBCandidate mz x intensity)
    (1 / 10) true hshift
  have hlen : (candidatePeaks S query (scenarioBCandidate mz x intensity) (1 / 10) true).length
      = 2 := by rw [hperm.length_eq]; rfl
  have hpm := matchLoop_exact _ query (1 / 10) hsorted (by rw [hlen]; norm_num) _ 0
    (range_sorted_of_massSorted query hq) (by rw [hlen]; norm_num)
    (fun j p hj => absurd hj (Nat.not_lt_zero j))
  have hi : i < query.peaks.length := (List.getElem?_eq_some.mp hp).1
  have hentry : ((p.intensity * intensity, i, 0) : PeakMatch) ∈
      (List.range query.getNumPeaks).flatMap
        (windowOf (candidatePeaks S query (scenarioBCandidate mz x intensity) (1 / 10) true)
          query (1 / 10)) := by
    refine List.mem_flatMap.mpr ⟨i, List.mem_range.mpr hi, mem_windowOf.mpr
      ⟨⟨x - 16, intensity, 1, 0⟩, hperm.symm.subset (by simp), ?_, ?_, ?_⟩⟩
    · rw [getPeakMass_of_getElem? hp]; exact hm
    · rw [getPeakCharge_of_getElem? hp]
      rcases hc with h | h <;> rw [h] <;> rfl
    · rw [getPeakIntensity_of_getElem? hp]; rfl
  obtain ⟨m, hsc⟩ : ∃ m, scoreCandidate S query (scenarioBCandidate mz x intensity) 0 (1 / 10)
      true = some m := ⟨_, scoreCandidate_eq (i := 0) hpm⟩
  refine ⟨_, m, hpm, hentry, ?_, ?_⟩
  · rw [dot_singleton, hsc]; rfl
  · intro hmax
    have hdom := scoreCandidate_of_dominant (i := 0) hpm hentry hmax (fun e' he' => Or.inr (by
      have hb := (matchPeaks_bounds hpm e' he').2.1
      have hn : (scenarioBCandidate mz x intensity).getNumPeaks = 1 := rfl
      rw [hn] at hb
      simp only
      omega))
    rw [hsc] at hdom
    rw [Option.some.inj hdom]

/-- Witness of the amended C12: the query with the single peak `(34, 1, 1)`
and the candidate of scenario B with `x = 50`. -/
theorem dot_scenario_B_witness :
    massDif ⟨516, 1, [⟨34, 1, 1⟩]⟩ (scenarioBCandidate 500 50 8) = 16 ∧
      List.Perm
        (candidatePeaks insertionStdSort ⟨516, 1, [⟨34, 1, 1⟩]⟩ (scenarioBCandidate 500 50 8)
          (1 / 10) true)
        [⟨50, 8, 0, 0⟩, ⟨50 - 16, 8, 1, 0⟩] :=
  ⟨by decide!,
    (dot_scenario_B insertionStdSort ⟨516, 1, [⟨34, 1, 1⟩]⟩ 500 50 8 0 ⟨34, 1, 1⟩ (by decide!)
      (by norm_num) (by unfold Spectrum.MassSorted; decide!) (by decide!) (by norm_num)
      (Or.inr rfl)).1⟩

/-- C13, counterexample. The result depends on the order the sort leaves among
equal weights: for the sorted query `tieQuery` and the candidate `tieCandidate`
(tolerance 1/10, shifting allowed) the match list is
`(1, 0, 0), (1, 0, 1), (1, 1, 0)`; this ordering and the ordering
`(1, 1, 0), (1, 0, 0), (1, 0, 1)` are both non-increasing in weight, and the
greedy walk gives score 1 with `[(0, 0)]` on the first and score 2 with
`[(1, 0), (0, 1)]` on the second; these are the matches `dot` returns with
`insertionStdSort` and with `reversedStdSort`. -/
theorem dot_depends_on_tie_order :
    matchPeaks (candidatePeaks insertionStdSort tieQuery tieCandidate (1 / 10) true) tieQuery
        (1 / 10) = some [(1, 0, 0), (1, 0, 1), (1, 1, 0)] ∧
      List.Perm ([(1, 1, 0), (1, 0, 0), (1, 0, 1)] : List PeakMatch)
        [(1, 0, 0), (1, 0, 1), (1, 1, 0)] ∧
      List.Pairwise (fun a b : PeakMatch => ¬ b.1 > a.1) [(1, 0, 0), (1, 0, 1), (1, 1, 0)] ∧
      List.Pairwise (fun a b : PeakMatch => ¬ b.1 > a.1) [(1, 1, 0), (1, 0, 0), (1, 0, 1)] ∧
      assignLoop [(1, 0, 0), (1, 0, 1), (1, 1, 0)] (List.replicate 2 false)
          (List.replicate 2 false) (SpectrumSpectrumMatch.new 0) = some ⟨0, 1, [(0, 0)]⟩ ∧
      assignLoop [(1, 1, 0), (1, 0, 0), (1, 0, 1)] (List.replicate 2 false)
          (List.replicate 2 false) (SpectrumSpectrumMatch.new 0) =
        some ⟨0, 2, [(1, 0), (0, 1)]⟩ ∧
      dot insertionStdSort tieQuery [tieCandidate] (1 / 10) true =
        some (some ⟨0, 1, [(0, 0)]⟩) ∧
      dot reversedStdSort tieQuery [tieCandidate] (1 / 10) true =
        some (some ⟨0, 2, [(1, 0), (0, 1)]⟩) :=
  ⟨by decide!, by decide!, by decide!, by decide!, by decide!, by decide!, by decide!, by decide!⟩

/-- C13, amended. Determinism where no two weights are equal: any two orderings
of a match list that are both non-increasing in weight are the same list when
the weights of the list are pairwise distinct, so the greedy assigner gives the
same score and the same `peakMatches` on both; and for a query with peaks
sorted ascending, working lists an `unsigned int` cursor can index and
candidates whose match lists have pairwise distinct weights, `dot` gives the
same outcome for every two sorts that meet the contract of `std::sort`. -/
theorem dot_sort_independent :
    (∀ (l₁ l₂ : List PeakMatch), List.Perm l₁ l₂ →
      List.Pairwise (fun a b : PeakMatch => ¬ b.1 > a.1) l₁ →
      List.Pairwise (fun a b : PeakMatch => ¬ b.1 > a.1) l₂ →
      (l₁.map fun e => e.1).Nodup →
      l₁ = l₂ ∧ ∀ (qU cU : List Bool) (m : SpectrumSpectrumMatch),
        assignLoop l₁ qU cU m = assignLoop l₂ qU cU m) ∧
    (∀ (S₁ S₂ : StdSort) (query : Spectrum) (cands : List Spectrum) (tol : ℚ)
      (allow_shift : Bool), query.MassSorted →
      (∀ c ∈ cands, (candidatePeaks S₁ query c tol allow_shift).length < 2 ^ 32) →
      (∀ c ∈ cands, ∀ pm,
        matchPeaks (candidatePeaks S₁ query c tol allow_shift) query tol = some pm →
        (pm.map fun e => e.1).Nodup) →
      dot S₁ query cands tol allow_shift = dot S₂ query cands tol allow_shift) := by
  constructor
  · intro l₁ l₂ hp h₁ h₂ hd
    have heq := sorted_perm_eq_of_distinct_weights hp h₁ h₂ hd
    exact ⟨heq, fun qU cU m => by rw [heq]⟩
  · intro S₁ S₂ query cands tol allow_shift hq hlen hd
    unfold dot
    apply dotLoop_congr
    intro c hc i
    exact scoreCandidate_sort_independent S₁ S₂ query c i tol allow_shift hq (hlen c hc) (hd c hc)

/-- Witness of the amended C13: scenario B with `x = 50`, whose match list has
the weights 8 and 80, under the two sorts. -/
theorem dot_sort_independent_witness :
    scenarioBQuery.MassSorted ∧
      matchPeaks (candidatePeaks insertionStdSort scenarioBQuery (scenarioBCandidate 500 50 8)
        (1 / 10) true) scenarioBQuery (1 / 10) = some [(8, 0, 0), (80, 1, 0)] ∧
      dot insertionStdSort scenarioBQuery [scenarioBCandidate 500 50 8] (1 / 10) true =
        dot reversedStdSort scenarioBQuery [scenarioBCandidate 500 50 8] (1 / 10) true :=
  ⟨by unfold Spectrum.MassSorted; decide!, by decide!,
    dot_sort_independent.2 insertionStdSort reversedStdSort scenarioBQuery
      [scenarioBCandidate 500 50 8] (1 / 10) true (by unfold Spectrum.MassSorted; decide!)
      (by decide!)
      (by
        intro c hc pm hpm
        rw [List.mem_singleton.mp hc] at hpm
        have h : matchPeaks (candidatePeaks insertionStdSort scenarioBQuery
            (scenarioBCandidate 500 50 8) (1 / 10) true) scenarioBQuery (1 / 10) =
            some [(8, 0, 0), (80, 1, 0)] := by decide!
        rw [h] at hpm
        cases hpm
        decide!)⟩

/-- C14. No division by zero in shift generation: for every candidate and
every one of its peaks, every value of `charge` by which `mass_dif` is divided
is at least 1, so every shifted peak carries a charge of at least 1, every
unshifted copy carries charge 0, and a peak of the working list has charge 0 if
and only if it is an unshifted copy. -/
theorem shift_charges_ge_one (candidate : Spectrum) :
    (∀ peak_index, ∀ charge ∈ shiftCharges candidate peak_index, 1 ≤ charge) ∧
      (∀ (mass_dif : ℚ) peak_index, ∀ p ∈ shiftedPeaksOf candidate mass_dif peak_index,
        1 ≤ p.charge) ∧
      (∀ p ∈ unshiftedPeaks candidate, p.charge = 0) ∧
      (∀ (S : StdSort) (query : Spectrum) (tol : ℚ) (allow_shift : Bool),
        ∀ p ∈ candidatePeaks S query candidate tol allow_shift,
          (p.charge = 0 ↔ p ∈ unshiftedPeaks candidate)) := by
  refine ⟨fun _ _ h => one_le_of_mem_shiftCharges h, ?_, fun p hp => (mem_unshiftedPeaks hp).2.1,
    fun S query tol allow_shift p hp => candidatePeaks_charge_zero_iff hp⟩
  intro mass_dif peak_index p hp
  obtain ⟨_, _, hlo, _⟩ := mem_shiftedPeaksOf hp
  exact le_trans (one_le_chargeBounds candidate peak_index) hlo

/-- Witness of C14 on `exampleCandidate`: the charge of the shift of peak 0 and
the shifted peak of mass 68 in the working list. -/
theorem shift_charges_ge_one_witness :
    (1 : ℕ) ∈ shiftCharges exampleCandidate 0 ∧ 1 ≤ (1 : ℕ) ∧
      (⟨68, 2, 1, 0⟩ : Peak) ∈ shiftedPeaksOf exampleCandidate 16 0 ∧
      1 ≤ (⟨68, 2, 1, 0⟩ : Peak).charge :=
  ⟨by decide!, (shift_charges_ge_one exampleCandidate).1 0 1 (by decide!), by decide!,
    (shift_charges_ge_one exampleCandidate).2.1 16 0 ⟨68, 2, 1, 0⟩ (by decide!)⟩

/-- C15. Greedy acceptance rule: walking a match list whose entries index inside
the flag vectors (as every match list of `dot` does), the assigner does not
fault, `peakMatches` is exactly the index pairs of the entries the walk of the
spec accepts (an entry is accepted if and only if no earlier accepted entry has
its query index and no earlier accepted entry has its candidate index), in walk
order, and the score is the sum of the accepted weights, starting from 0; this
is in particular the match of a candidate, for its sorted match list. -/
theorem assignLoop_eq_greedyWalk :
    (∀ (ms : List PeakMatch) (nq nc i : ℕ), (∀ e ∈ ms, e.2.1 < nq ∧ e.2.2 < nc) →
      assignLoop ms (List.replicate nq false) (List.replicate nc false)
          (SpectrumSpectrumMatch.new i) =
        some ⟨i, totalWeight (greedyWalk ms []), (greedyWalk ms []).map pairOf⟩) ∧
    (∀ (S : StdSort) (query candidate : Spectrum) (i : ℕ) (tol : ℚ) (allow_shift : Bool)
      (pm : List PeakMatch),
      matchPeaks (candidatePeaks S query candidate tol allow_shift) query tol = some pm →
      scoreCandidate S query candidate i tol allow_shift =
        some ⟨i, totalWeight (greedyWalk (S.sortMatches pm) []),
          (greedyWalk (S.sortMatches pm) []).map pairOf⟩) := by
  constructor
  · intro ms nq nc i hb
    rw [assignLoop_eq ms _ _ _ [] [] (flagsOf_replicate nq) (flagsOf_replicate nc)
      (by simpa using hb), greedyWalk_eq]
    simp [SpectrumSpectrumMatch.new]
  · intro S query candidate i tol allow_shift pm h
    rw [scoreCandidate_eq h, greedyWalk_eq]
    simp

/-- Witness of C15 on the sorted match list of the example with shifting. -/
theorem assignLoop_eq_greedyWalk_witness :
    (∀ e ∈ ([(9, 0, 1), (6, 0, 0), (6, 1, 1)] : List PeakMatch), e.2.1 < 2 ∧ e.2.2 < 2) ∧
      greedyWalk [(9, 0, 1), (6, 0, 0), (6, 1, 1)] [] = [(9, 0, 1)] ∧
      assignLoop [(9, 0, 1), (6, 0, 0), (6, 1, 1)] (List.replicate 2 false)
          (List.replicate 2 false) (SpectrumSpectrumMatch.new 0) =
        some ⟨0, totalWeight (greedyWalk [(9, 0, 1), (6, 0, 0), (6, 1, 1)] []),
          (greedyWalk [(9, 0, 1), (6, 0, 0), (6, 1, 1)] []).map pairOf⟩ :=
  ⟨by decide!, by decide!,
    assignLoop_eq_greedyWalk.1 [(9, 0, 1), (6, 0, 0), (6, 1, 1)] 2 2 0 (by decide!)⟩

/-- C16. The greedy assignment is not an exact maximum-weight matching: for the
sorted query `greedyQuery`, the single sorted candidate `greedyCandidate` (all
intensities positive), tolerance 1 and `allow_shift = false`, for every
`std::sort`, the match list is `(6, 0, 0), (9, 0, 1), (6, 1, 1)` and `dot`
returns the score 9 with the single pair `(0, 1)`, while the selection of the
entries `(6, 0, 0)` and `(6, 1, 1)` of the match list reuses no query index and
no candidate index and weighs 12. -/
theorem dot_greedy_not_optimal (S : StdSort) :
    greedyQuery.MassSorted ∧ greedyCandidate.MassSorted ∧
      (∀ p ∈ greedyQuery.peaks, 0 ≤ p.intensity) ∧
      (∀ p ∈ greedyCandidate.peaks, 0 ≤ p.intensity) ∧
      matchPeaks (candidatePeaks S greedyQuery greedyCandidate 1 false) greedyQuery 1 =
        some [(6, 0, 0), (9, 0, 1), (6, 1, 1)] ∧
      dot S greedyQuery [greedyCandidate] 1 false = some (some ⟨0, 9, [(0, 1)]⟩) ∧
      (∀ s ∈ ([(6, 0, 0), (6, 1, 1)] : List PeakMatch),
        s ∈ ([(6, 0, 0), (9, 0, 1), (6, 1, 1)] : List PeakMatch)) ∧
      (([(6, 0, 0), (6, 1, 1)] : List PeakMatch).map fun e => e.2.1).Nodup ∧
      (([(6, 0, 0), (6, 1, 1)] : List PeakMatch).map fun e => e.2.2).Nodup ∧
      (9 : ℚ) < totalWeight [(6, 0, 0), (6, 1, 1)] := by
  have hpm : matchPeaks (candidatePeaks S greedyQuery greedyCandidate 1 false) greedyQuery 1 =
      some [(6, 0, 0), (9, 0, 1), (6, 1, 1)] := by
    rw [candidatePeaks_noshift S _ _ _ false (by simp)]
    decide!
  refine ⟨by unfold Spectrum.MassSorted; decide!, by unfold Spectrum.MassSorted; decide!,
    by decide!, by decide!, hpm, ?_, by decide!, by decide!, by decide!, by decide!⟩
  rw [dot_singleton, scoreCandidate_of_dominant (e := (9, 0, 1)) hpm (by decide!) (by decide!)
    (by decide!)]
  rfl

/-- C17. Charge-compatibility predicate: for every query peak charge `q` and
working-list peak charge `c`, the three-branch test sets `can_match` to true if
and only if `c = 0` or `q = 0` or `q = c`; a match is refused exactly when both
charges are non-zero and different. -/
theorem canMatch_true_iff (q c : ℕ) :
    (canMatch q c = true ↔ c = 0 ∨ q = 0 ∨ q = c) ∧
      (canMatch q c = false ↔ c ≠ 0 ∧ q ≠ 0 ∧ q ≠ c) := by
  unfold canMatch
  by_cases hc : c = 0
  · simp [hc]
  · by_cases hq : q = 0
    · simp [hc, hq]
    · by_cases hqc : q = c
      · simp [hc, hq, hqc]
      · simp [hc, hq, hqc]

/-- C18. Every reported pair is justified, with no sortedness precondition: for
every query, candidate list, tolerance and `allow_shift`, each entry `(q, c)`
of the `peakMatches` of a returned match satisfies, for the candidate at the
returned `candidateIndex`: either `|query.mass[q] - candidate.mass[c]|` is at
most the tolerance, or `allow_shift` holds, the mass difference exceeds the
tolerance and there is a charge `k ≥ 1` used for shifting peak `c` (the peak's
own charge if known, else `1 ≤ k < precursorCharge`) with
`candidate.mass[c] - massDiff / k > 0`, the query peak within the tolerance of
that shifted mass and the query charge 0 or `k`. -/
theorem dot_pairs_justified (S : StdSort) (query : Spectrum) (cands : List Spectrum) (tol : ℚ)
    (allow_shift : Bool) (m : SpectrumSpectrumMatch)
    (h : dot S query cands tol allow_shift = some (some m)) :
    ∃ c, cands[m.candidateIndex]? = some c ∧
      ∀ x ∈ m.peakMatches, PairJustified query c tol allow_shift x.1 x.2 := by
  obtain ⟨i, c, hi, hsc, hidx, _⟩ := dot_some_selected h
  obtain ⟨pm, hpm, _, _, hpairs⟩ := scoreCandidate_fields hsc
  refine ⟨c, by rw [hidx]; exact hi, ?_⟩
  intro x hx
  rw [hpairs] at hx
  obtain ⟨e, he, rfl⟩ := List.mem_map.mp hx
  have hmem : e ∈ pm :=
    (S.sortMatches_perm pm).subset ((greedyAccept_sublist _ [] []).subset he)
  exact matchPeaks_justified hpm e hmem

/-- Witness of C18 on the example with shifting: the pair `(0, 1)` is query
peak 0 at mass 84 and candidate peak 1 at mass 100 shifted by 16. -/
theorem dot_pairs_justified_witness :
    dot insertionStdSort exampleQuery [exampleCandidate] (1 / 10) true =
        some (some ⟨0, 9, [(0, 1)]⟩) ∧
      ∃ c, [exampleCandidate][0]? = some c ∧
        ∀ x ∈ ([(0, 1)] : List (ℕ × ℕ)), PairJustified exampleQuery c (1 / 10) true x.1 x.2 :=
  ⟨dot_example_shift,
    dot_pairs_justified insertionStdSort exampleQuery [exampleCandidate] (1 / 10) true
      ⟨0, 9, [(0, 1)]⟩ dot_example_shift⟩

/-- C19. The greedy assignment is maximal: for the match list of a candidate
and the match the assigner builds from it, every entry of the match list has
its query index or its candidate index occurring in `peakMatches`, and both
indices of every `peakMatches` entry are valid (below the query peak count and
the candidate peak count). -/
theorem scoreCandidate_maximal (S : StdSort) (query candidate : Spectrum) (i : ℕ) (tol : ℚ)
    (allow_shift : Bool) (m : SpectrumSpectrumMatch)
    (h : scoreCandidate S query candidate i tol allow_shift = some m) :
    ∃ pm, matchPeaks (candidatePeaks S query candidate tol allow_shift) query tol = some pm ∧
      (∀ e ∈ pm, e.2.1 ∈ m.peakMatches.map Prod.fst ∨ e.2.2 ∈ m.peakMatches.map Prod.snd) ∧
      ∀ x ∈ m.peakMatches, x.1 < query.getNumPeaks ∧ x.2 < candidate.getNumPeaks := by
  obtain ⟨pm, hpm, _, _, hpairs⟩ := scoreCandidate_fields h
  refine ⟨pm, hpm, ?_, ?_⟩
  · intro e he
    have hmem : e ∈ S.sortMatches pm := (S.sortMatches_perm pm).symm.subset he
    rw [hpairs, List.map_map, List.map_map]
    rcases greedyAccept_maximal (S.sortMatches pm) [] [] e hmem with (h1 | h1) | (h1 | h1)
    · simp at h1
    · exact Or.inl h1
    · simp at h1
    · exact Or.inr h1
  · intro x hx
    rw [hpairs] at hx
    obtain ⟨e, he, rfl⟩ := List.mem_map.mp hx
    have hmem : e ∈ pm :=
      (S.sortMatches_perm pm).subset ((greedyAccept_sublist _ [] []).subset he)
    exact ⟨(matchPeaks_bounds hpm e hmem).1, (matchPeaks_bounds hpm e hmem).2.1⟩

/-- Witness of C19 on the example with shifting: entries `(6, 0, 0)` and
`(6, 1, 1)` of the match list each share an index with the pair `(0, 1)`. -/
theorem scoreCandidate_maximal_witness :
    scoreCandidate insertionStdSort exampleQuery exampleCandidate 0 (1 / 10) true =
        some ⟨0, 9, [(0, 1)]⟩ ∧
      ∃ pm, matchPeaks (candidatePeaks insertionStdSort exampleQuery exampleCandidate (1 / 10) true)
          exampleQuery (1 / 10) = some pm ∧
        (∀ e ∈ pm, e.2.1 ∈ ([(0, 1)] : List (ℕ × ℕ)).map Prod.fst ∨
          e.2.2 ∈ ([(0, 1)] : List (ℕ × ℕ)).map Prod.snd) ∧
        ∀ x ∈ ([(0, 1)] : List (ℕ × ℕ)),
          x.1 < exampleQuery.getNumPeaks ∧ x.2 < exampleCandidate.getNumPeaks :=
  ⟨by decide!,
    scoreCandidate_maximal insertionStdSort exampleQuery exampleCandidate 0 (1 / 10) true
      ⟨0, 9, [(0, 1)]⟩ (by decide!)⟩

/-- C20. Greedy is a 1/2-approximation: for a query and a candidate with
non-negative intensities, the score the assigner computes from the candidate's
match list is at least half the total weight of any selection of entries of
that match list in which no query index and no candidate index is used twice. -/
theorem scoreCandidate_half_approx (S : StdSort) (query candidate : Spectrum) (i : ℕ) (tol : ℚ)
    (allow_shift : Bool) (m : SpectrumSpectrumMatch) (pm sel : List PeakMatch)
    (hqi : ∀ p ∈ query.peaks, 0 ≤ p.intensity) (hci : ∀ p ∈ candidate.peaks, 0 ≤ p.intensity)
    (hpm : matchPeaks (candidatePeaks S query candidate tol allow_shift) query tol = some pm)
    (h : scoreCandidate S query candidate i tol allow_shift = some m)
    (hsel : ∀ s ∈ sel, s ∈ pm) (hq : (sel.map fun e => e.2.1).Nodup)
    (hc : (sel.map fun e => e.2.2).Nodup) :
    totalWeight sel ≤ 2 * m.score := by
  rw [scoreCandidate_eq hpm] at h
  cases h
  apply greedyAccept_half (S.sortMatches pm) [] [] sel (S.sortMatches_ordered pm)
  · intro e he
    have hb := matchPeaks_bounds hpm e ((S.sortMatches_perm pm).subset he)
    rw [hb.2.2]
    exact mul_nonneg (getPeakIntensity_nonneg query hqi _) (getPeakIntensity_nonneg candidate hci _)
  · intro s hs
    exact ⟨(S.sortMatches_perm pm).symm.subset (hsel s hs), List.not_mem_nil _, List.not_mem_nil _⟩
  · exact hq
  · exact hc

/-- Witness of C20 on the example with shifting: the selection of the two
entries of weight 6 weighs 12, the greedy score is 9. -/
theorem scoreCandidate_half_approx_witness :
    matchPeaks (candidatePeaks insertionStdSort exampleQuery exampleCandidate (1 / 10) true)
        exampleQuery (1 / 10) = some [(6, 0, 0), (9, 0, 1), (6, 1, 1)] ∧
      scoreCandidate insertionStdSort exampleQuery exampleCandidate 0 (1 / 10) true =
        some ⟨0, 9, [(0, 1)]⟩ ∧
      totalWeight [(6, 0, 0), (6, 1, 1)] ≤ 2 * (9 : ℚ) :=
  ⟨by decide!, by decide!,
    scoreCandidate_half_approx insertionStdSort exampleQuery exampleCandidate 0 (1 / 10) true
      ⟨0, 9, [(0, 1)]⟩ [(6, 0, 0), (9, 0, 1), (6, 1, 1)] [(6, 0, 0), (6, 1, 1)] (by decide!)
      (by decide!) (by decide!) (by decide!) (by decide!) (by decide!) (by decide!)⟩

end AnnSolo
